import Mathlib

/- Verification of the Markdown parsing core of the MarkdownToWord repository
   (src/parser.py, src/converter.py, src/utils.py, src/handlers.py).

   Modelling conventions:
   * Python strings are modelled as lists of characters (`Chars`); the text
     helpers mirror the corresponding str methods restricted to the ASCII
     whitespace set that Python's str.strip and the regex class \s use on
     ASCII input.
   * Python regular expressions are translated into explicit deterministic
     character scans; each translation is annotated with the regex it mirrors,
     and greedy or lazy repetition is resolved into the first/longest
     occurrence semantics that the pattern forces.
   * The while-loops of the two block splitters mutate a cursor and (in one
     branch) the list of lines, so they are modelled as explicit step
     functions on a state record, driven by a fuel-indexed runner: one unit
     of fuel corresponds to exactly one iteration of the Python while-loop,
     and running out of fuel yields `none`.  A loop that never terminates
     therefore yields `none` for every fuel value. -/

namespace M2W

abbrev Chars := List Char

/-- View of a string literal as a list of characters. -/
def str (s : String) : Chars := s.data

/-- ASCII instance of Python's whitespace test (str.strip / regex \s). -/
def pyWs (c : Char) : Bool :=
  c = ' ' || c = '\t' || c = '\n' || c = '\r' || c = '\x0B' || c = '\x0C'

/-- Python str.lstrip(). -/
def lstrip (l : Chars) : Chars := l.dropWhile pyWs

/-- Python str.rstrip(). -/
def rstrip (l : Chars) : Chars := (l.reverse.dropWhile pyWs).reverse

/-- Python str.strip(). -/
def pstrip (l : Chars) : Chars := rstrip (lstrip l)

/-- Truthiness of line.strip(): true when the line has no non-space char. -/
def isBlank (l : Chars) : Bool := (pstrip l).isEmpty

/-! ## Table cell splitter (src/parser.py, _split_table_cells)

The Python function scans the row character by character keeping the list of
finished cells and the current cell; `line[i-1]` is the previous character of
the original row, which the scan carries along as `prev`.  The escaped-pipe
branch overwrites the backslash just pushed onto the current cell with the
pipe character (`current_cell[-1] = '|'`); the current cell is accumulated in
reverse, so that update is a head replacement. -/

def splitCellsGo (prev : Option Char) (cells : List Chars) (cur : Chars) :
    Chars → List Chars
  | [] =>
      -- `if current_cell or cells: cells.append(''.join(current_cell).strip())`
      if cur.isEmpty && cells.isEmpty then [] else cells ++ [pstrip cur.reverse]
  | c :: rest =>
      if c = '|' && prev = some '\\' then
        splitCellsGo (some c) cells ('|' :: cur.tail) rest
      else if c = '|' then
        splitCellsGo (some c) (cells ++ [pstrip cur.reverse]) [] rest
      else
        splitCellsGo (some c) cells (c :: cur) rest

def split_table_cells (line : Chars) : List Chars :=
  splitCellsGo none [] [] line

/-- Number of pipe characters of the row that are not escaped by an
immediately preceding backslash, with the previous character carried as in
the scan above. -/
def countUnescapedGo (prev : Option Char) : Chars → Nat
  | [] => 0
  | c :: rest =>
      (if c = '|' && prev ≠ some '\\' then 1 else 0) + countUnescapedGo (some c) rest

def countUnescapedPipes (line : Chars) : Nat := countUnescapedGo none line

lemma splitCellsGo_length (rest : Chars) : ∀ (prev : Option Char)
    (cells : List Chars) (cur : Chars),
    ¬(rest = [] ∧ cur = [] ∧ cells = []) →
    (splitCellsGo prev cells cur rest).length =
      cells.length + 1 + countUnescapedGo prev rest := by
  induction rest with
  | nil =>
      intro prev cells cur h
      have hcond : (cur.isEmpty && cells.isEmpty) = false := by
        rcases cur with _ | _ <;> rcases cells with _ | _ <;> simp_all
      simp [splitCellsGo, countUnescapedGo, hcond]
  | cons c rest ih =>
      intro prev cells cur _
      simp only [splitCellsGo]
      by_cases h1 : (c = '|' && prev = some '\\') = true
      · rw [if_pos h1]
        rw [ih (some c) cells ('|' :: cur.tail) (by simp)]
        simp only [Bool.and_eq_true, decide_eq_true_eq] at h1
        simp [countUnescapedGo, h1.1, h1.2]
      · rw [if_neg h1]
        by_cases h2 : c = '|'
        · rw [if_pos (by simp [h2])]
          rw [ih (some c) (cells ++ [pstrip cur.reverse]) [] (by simp)]
          have hp : prev ≠ some '\\' := by
            intro hpe
            exact h1 (by simp [h2, hpe])
          simp [countUnescapedGo, h2, hp]
          omega
        · rw [if_neg (by simp [h2])]
          rw [ih (some c) cells (c :: cur) (by simp)]
          simp [countUnescapedGo, h2]

/-- **C4.**  The table cell splitter keeps an escaped pipe literally with the
backslash dropped (concrete witness `a \| b | c` → `["a | b", "c"]`), and in
general every unescaped `|` terminates one cell: a non-empty row splits into
exactly one more cell than it has unescaped pipes. -/
theorem table_cells_escape_and_split :
    split_table_cells (str "a \\| b | c") = [str "a | b", str "c"] ∧
    ∀ line : Chars, line ≠ [] →
      (split_table_cells line).length = countUnescapedPipes line + 1 := by
  constructor
  · rfl
  · intro line h
    have := splitCellsGo_length line none [] [] (by simp [h])
    simpa [split_table_cells, countUnescapedPipes, Nat.add_comm] using this

theorem table_cells_escape_and_split_witness :
    (str "a \\| b | c") ≠ [] ∧
    (split_table_cells (str "a \\| b | c")).length =
      countUnescapedPipes (str "a \\| b | c") + 1 :=
  ⟨by decide, table_cells_escape_and_split.2 (str "a \\| b | c") (by decide)⟩

/-! ## Line splitting and joining (Python str.split('\n') / '\n'.join) -/

def splitNl : Chars → List Chars
  | [] => [[]]
  | c :: rest =>
      if c = '\n' then [] :: splitNl rest
      else (c :: (splitNl rest).headD []) :: (splitNl rest).tail

def joinNl : List Chars → Chars
  | [] => []
  | l :: rest => l ++ (if rest.isEmpty then [] else '\n' :: joinNl rest)

/-! ## Table parser (src/parser.py, parse_table)

`parse_table` strips the block, keeps the stripped non-blank lines, splits
the header and separator rows with the escape-aware cell splitter, drops one
leading and one trailing empty cell coming from a `|...|` framed row, and
maps each separator cell to an alignment keyword. -/

/-- Drop a leading and a trailing empty cell, mirroring the two sequential
`if cells and cells[0] == ''` / `if cells and cells[-1] == ''` fixups. -/
def trimEdges (cells : List Chars) : List Chars :=
  let c1 := if cells.head? = some [] then cells.tail else cells
  if c1.getLast? = some [] then c1.dropLast else c1

/-- Alignment of one separator cell: `:...:` → center, `...:` → right,
anything else (including a bare `:...`) → left. -/
def alignmentOf (cell : Chars) : String :=
  let c := pstrip cell
  if ([':'] : Chars).isPrefixOf c && ([':'] : Chars).isSuffixOf c then "center"
  else if ([':'] : Chars).isSuffixOf c then "right"
  else "left"

def parse_table (tableText : Chars) :
    List Chars × List (List Chars) × List String :=
  let lines := ((splitNl (pstrip tableText)).map pstrip).filter (fun l => !l.isEmpty)
  if lines.length < 2 then ([], [], [])
  else
    let headers := trimEdges (split_table_cells (lines.getD 0 []))
    let alignCells := trimEdges (split_table_cells (lines.getD 1 []))
    let alignments := alignCells.map alignmentOf
    let rows := ((lines.drop 2).map (fun l => trimEdges (split_table_cells l))).filter
      (fun r => !r.isEmpty)
    (headers, rows, alignments)

/-- **C9.**  The core table parser maps a separator cell with both a leading
and a trailing colon to center, a trailing colon only to right, a leading
colon only to left, and a cell with neither to left; the concrete table
exercises all four cases through `parse_table` (which splits the separator
row with the escape-aware cell splitter). -/
theorem separator_alignment_mapping :
    (∀ cell : Chars,
      (([':'] : Chars).isPrefixOf (pstrip cell) = true →
        ([':'] : Chars).isSuffixOf (pstrip cell) = true →
        alignmentOf cell = "center") ∧
      (([':'] : Chars).isPrefixOf (pstrip cell) = false →
        ([':'] : Chars).isSuffixOf (pstrip cell) = true →
        alignmentOf cell = "right") ∧
      (([':'] : Chars).isPrefixOf (pstrip cell) = true →
        ([':'] : Chars).isSuffixOf (pstrip cell) = false →
        alignmentOf cell = "left") ∧
      (([':'] : Chars).isPrefixOf (pstrip cell) = false →
        ([':'] : Chars).isSuffixOf (pstrip cell) = false →
        alignmentOf cell = "left")) ∧
    parse_table (str "a|b|c|d\n:-:|--:|:--|--\n1|2|3|4") =
      ([str "a", str "b", str "c", str "d"],
       [[str "1", str "2", str "3", str "4"]],
       ["center", "right", "left", "left"]) := by
  constructor
  · intro cell
    refine ⟨?_, ?_, ?_, ?_⟩ <;> intro h1 h2 <;> simp [alignmentOf, h1, h2]
  · rfl

theorem separator_alignment_mapping_witness :
    alignmentOf (str ":-:") = "center" ∧ alignmentOf (str "--:") = "right" ∧
    alignmentOf (str ":--") = "left" ∧ alignmentOf (str "--") = "left" :=
  ⟨(separator_alignment_mapping.1 (str ":-:")).1 (by decide) (by decide),
   (separator_alignment_mapping.1 (str "--:")).2.1 (by decide) (by decide),
   (separator_alignment_mapping.1 (str ":--")).2.2.1 (by decide) (by decide),
   (separator_alignment_mapping.1 (str "--")).2.2.2 (by decide) (by decide)⟩

/-! ## Shared line predicates (regexes of parser.py / converter.py) -/

/-- Join with a single space (Python ' '.join). -/
def joinSp : List Chars → Chars
  | [] => []
  | [l] => l
  | l :: rest => l ++ ' ' :: joinSp rest

/-- Regex `^[\s\|\:\-]+$`: the table separator line grammar. -/
def isTableSepLine (l : Chars) : Bool :=
  !l.isEmpty && l.all (fun c => pyWs c || c = '|' || c = ':' || c = '-')

/-- Regex `^[\s]*[\*\-\+]\s`: an unordered (bullet) list line. -/
def isUnorderedStart (l : Chars) : Bool :=
  match l.dropWhile pyWs with
  | m :: c :: _ => (m = '*' || m = '-' || m = '+') && pyWs c
  | _ => false

/-- Regex `^[\s]*\d+\.\s`: an ordered list line. -/
def isOrderedStart (l : Chars) : Bool :=
  let r := l.dropWhile pyWs
  let ds := r.takeWhile Char.isDigit
  !ds.isEmpty &&
    match r.drop ds.length with
    | '.' :: c :: _ => pyWs c
    | _ => false

/-- Regex `^[\s]*[-\*_]{3,}[\s]*$`: a horizontal rule line (the character
class admits a mixed run of the three marker characters). -/
def isHrLine (l : Chars) : Bool :=
  let r := l.dropWhile pyWs
  let run := r.takeWhile (fun c => c = '-' || c = '*' || c = '_')
  run.length ≥ 3 && (r.drop run.length).all pyWs

/-- Regex `^!\[([^\]]*)\]\(([^\)]+)\)$` anchored at both ends: a standalone
image line, returning (alt text, url). -/
def imageLineMatch (l : Chars) : Option (Chars × Chars) :=
  match l with
  | '!' :: '[' :: r1 =>
      let alt := r1.takeWhile (fun c => c ≠ ']')
      match r1.drop alt.length with
      | ']' :: '(' :: r3 =>
          let url := r3.takeWhile (fun c => c ≠ ')')
          if url.isEmpty then none
          else match r3.drop url.length with
            | [')'] => some (alt, url)
            | _ => none
      | _ => none
  | _ => none

/-- Python re.sub(r'^[\s]*[\*\-\+]\s*', '', line): drop leading whitespace,
one bullet marker and the whitespace after it (unchanged when the pattern
does not match). -/
def stripBulletMarker (l : Chars) : Chars :=
  match l.dropWhile pyWs with
  | m :: rest => if m = '*' || m = '-' || m = '+' then rest.dropWhile pyWs else l
  | [] => l

/-- Regex `^\[([ xX])\]\s*(.*)`: the task-list sub-grammar, returning
(checked, remaining text). -/
def taskMatch (t : Chars) : Option (Bool × Chars) :=
  match t with
  | '[' :: c :: ']' :: rest =>
      if c = ' ' || c = 'x' || c = 'X' then some (c = 'x' || c = 'X', rest.dropWhile pyWs)
      else none
  | _ => none

/-- Regex `^(\s*)(\d+)\.\s+(.*)$` of the ordered-list branch of
parse_markdown, returning (indent width, item text). -/
def orderedItemMatch (l : Chars) : Option (Nat × Chars) :=
  let ws := l.takeWhile pyWs
  let r := l.drop ws.length
  let ds := r.takeWhile Char.isDigit
  if ds.isEmpty then none
  else match r.drop ds.length with
    | '.' :: rest =>
        let sp := rest.takeWhile pyWs
        if sp.isEmpty then none else some (ws.length, rest.drop sp.length)
    | _ => none

/-- Regex `^(\s*)(\d+\.|\*|\-|\+)\s+(.*)$` of _extract_list, returning
(indent width, item text); the marker alternation accepts both ordered and
unordered syntax. -/
def convListMatch (l : Chars) : Option (Nat × Chars) :=
  let ws := l.takeWhile pyWs
  let r := l.drop ws.length
  let ds := r.takeWhile Char.isDigit
  let afterMarker : Option Chars :=
    if !ds.isEmpty then
      match r.drop ds.length with
      | '.' :: rest => some rest
      | _ => none
    else
      match r with
      | m :: rest => if m = '*' || m = '-' || m = '+' then some rest else none
      | [] => none
  match afterMarker with
  | some rest =>
      let sp := rest.takeWhile pyWs
      if sp.isEmpty then none else some (ws.length, rest.drop sp.length)
  | none => none

/-- Lazy `(.+?)` followed by the literal `close`, as in `^\$\$(.+?)\$\$`:
the shortest non-empty dot-run (dot excludes newline) whose end is followed
by `close`; returns (run, text after close). -/
def lazyDotQ (close : Chars) : Chars → Option (Chars × Chars)
  | [] => none
  | c :: rest =>
      if c = '\n' then none
      else if close.isPrefixOf rest then some ([c], rest.drop close.length)
      else (lazyDotQ close rest).map (fun p => (c :: p.1, p.2))

/-- Regex `^\$\$(.+?)\$\$`: first single-line block formula, returning
(formula body, text after the match). -/
def singleMathMatch (s : Chars) : Option (Chars × Chars) :=
  match s with
  | '$' :: '$' :: r1 => lazyDotQ (str "$$") r1
  | _ => none

/-! ## parse_markdown (src/parser.py) as a step machine

One unit of fuel of `pmRun` is one iteration of the Python while-loop.  The
single-line `$$...$$` branch overwrites the current line with the re-queued
remainder (`lines[i] = remaining`). -/

inductive PMItem where
  | item (text : Chars)
  | task (checked : Bool) (text : Chars)
  | ord (level : Nat) (text : Chars)
  deriving DecidableEq, Repr

inductive PMContent where
  | txt (s : Chars)
  | items (l : List PMItem)
  deriving DecidableEq, Repr

/-- BlockElement of parser.py (level defaults to 0, language to ''). -/
structure PMBlock where
  type_ : String
  content : PMContent
  level : Nat := 0
  language : Chars := []
  deriving DecidableEq, Repr

structure PMState where
  lines : List Chars
  i : Nat
  blocks : List PMBlock
  deriving DecidableEq, Repr

/-- Code-block body scan: while i < len and not lines[i].strip().startswith('```'). -/
def pmScanCode (lines : List Chars) : Nat → Nat → List Chars → List Chars × Nat
  | 0, i, acc => (acc.reverse, i)
  | fuel + 1, i, acc =>
      if (str "```").isPrefixOf (pstrip (lines.getD i [])) then (acc.reverse, i)
      else pmScanCode lines fuel (i + 1) (lines.getD i [] :: acc)

/-- Multi-line formula scan: while i < len and not lines[i].strip().endswith('$$'). -/
def pmScanMath (lines : List Chars) : Nat → Nat → List Chars → List Chars × Nat
  | 0, i, acc => (acc.reverse, i)
  | fuel + 1, i, acc =>
      if (str "$$").isSuffixOf (pstrip (lines.getD i [])) then (acc.reverse, i)
      else pmScanMath lines fuel (i + 1) (lines.getD i [] :: acc)

/-- Table scan: while i < len and '|' in lines[i]. -/
def pmScanTable (lines : List Chars) : Nat → Nat → List Chars → List Chars × Nat
  | 0, i, acc => (acc.reverse, i)
  | fuel + 1, i, acc =>
      if (lines.getD i []).contains '|' then
        pmScanTable lines fuel (i + 1) (lines.getD i [] :: acc)
      else (acc.reverse, i)

/-- Quote scan: while i < len and lines[i].startswith('>'), collecting
lines[i][1:].strip(). -/
def pmScanQuote (lines : List Chars) : Nat → Nat → List Chars → List Chars × Nat
  | 0, i, acc => (acc.reverse, i)
  | fuel + 1, i, acc =>
      if (['>'] : Chars).isPrefixOf (lines.getD i []) then
        pmScanQuote lines fuel (i + 1) (pstrip ((lines.getD i []).drop 1) :: acc)
      else (acc.reverse, i)

/-- Unordered-list scan of parse_markdown: items carry no level. -/
def pmScanUL (lines : List Chars) : Nat → Nat → List PMItem → List PMItem × Nat
  | 0, i, acc => (acc.reverse, i)
  | fuel + 1, i, acc =>
      if isUnorderedStart (lines.getD i []) then
        let itemText := stripBulletMarker (lines.getD i [])
        let it := match taskMatch itemText with
          | some (checked, text) => PMItem.task checked text
          | none => PMItem.item itemText
        pmScanUL lines fuel (i + 1) (it :: acc)
      else (acc.reverse, i)

/-- Ordered-list scan of parse_markdown: level = indent width / 2. -/
def pmScanOL (lines : List Chars) : Nat → Nat → List PMItem → List PMItem × Nat
  | 0, i, acc => (acc.reverse, i)
  | fuel + 1, i, acc =>
      if isOrderedStart (lines.getD i []) then
        let acc2 := match orderedItemMatch (lines.getD i []) with
          | some (indent, text) => PMItem.ord (indent / 2) text :: acc
          | none => acc
        pmScanOL lines fuel (i + 1) acc2
      else (acc.reverse, i)

/-- Paragraph scan of parse_markdown with its break conditions (note: the
separator-line check here uses the unstripped next line). -/
def pmScanPara (lines : List Chars) : Nat → Nat → List Chars → List Chars × Nat
  | 0, i, acc => (acc.reverse, i)
  | fuel + 1, i, acc =>
      let line := lines.getD i []
      if isBlank line then (acc.reverse, i)
      else if (['#'] : Chars).isPrefixOf line || (str "```").isPrefixOf (pstrip line) ||
          (str "$$").isPrefixOf (pstrip line) || (['>'] : Chars).isPrefixOf line ||
          isUnorderedStart line || isOrderedStart line || isHrLine line then (acc.reverse, i)
      else if line.contains '|' && decide (i + 1 < lines.length) &&
          isTableSepLine (lines.getD (i + 1) []) then (acc.reverse, i)
      else pmScanPara lines fuel (i + 1) (line :: acc)

/-- Code-block branch of parse_markdown. -/
def pmCodeBranch (lines : List Chars) (i : Nat) (blocks : List PMBlock) : PMState :=
  let language := pstrip ((pstrip (lines.getD i [])).drop 3)
  let r := pmScanCode lines (lines.length - (i + 1)) (i + 1) []
  ⟨lines, r.2 + 1, blocks ++ [⟨"code_block", .txt (joinNl r.1), 0, language⟩]⟩

/-- Single-line `$$...$$` branch: a remainder starting a new formula is
written back over the current line (`lines[i] = remaining`). -/
def pmMathSingle (lines : List Chars) (i : Nat) (blocks : List PMBlock)
    (formula afterM : Chars) : PMState :=
  let remaining := pstrip afterM
  let blocks2 := blocks ++ [⟨"math_block", .txt (pstrip formula), 0, []⟩]
  if (str "$$").isPrefixOf remaining then ⟨lines.set i remaining, i, blocks2⟩
  else ⟨lines, i + 1, blocks2⟩

/-- Multi-line `$$` branch of parse_markdown. -/
def pmMathMulti (lines : List Chars) (i : Nat) (blocks : List PMBlock) : PMState :=
  let r := pmScanMath lines (lines.length - (i + 1)) (i + 1) []
  let fl := if r.2 < lines.length then
      (let last := pstrip (lines.getD r.2 [])
       if last ≠ str "$$" then r.1 ++ [last.take (last.length - 2)] else r.1)
    else r.1
  ⟨lines, r.2 + 1, blocks ++ [⟨"math_block", .txt (joinNl fl), 0, []⟩]⟩

/-- Heading branch: level counts leading `#`, clamped to 4 for styling. -/
def pmHeadingBranch (lines : List Chars) (i : Nat) (blocks : List PMBlock) : PMState :=
  let level := ((lines.getD i []).takeWhile (fun c => c = '#')).length
  let content := pstrip ((lines.getD i []).drop level)
  ⟨lines, i + 1, blocks ++ [⟨"heading", .txt content, min level 4, []⟩]⟩

def pmTableBranch (lines : List Chars) (i : Nat) (blocks : List PMBlock) : PMState :=
  let r := pmScanTable lines (lines.length - i) i []
  ⟨lines, r.2, blocks ++ [⟨"table", .txt (joinNl r.1), 0, []⟩]⟩

def pmQuoteBranch (lines : List Chars) (i : Nat) (blocks : List PMBlock) : PMState :=
  let r := pmScanQuote lines (lines.length - i) i []
  ⟨lines, r.2, blocks ++ [⟨"quote", .txt (joinNl r.1), 0, []⟩]⟩

def pmULBranch (lines : List Chars) (i : Nat) (blocks : List PMBlock) : PMState :=
  let r := pmScanUL lines (lines.length - i) i []
  ⟨lines, r.2, blocks ++ [⟨"list", .items r.1, 0, []⟩]⟩

def pmOLBranch (lines : List Chars) (i : Nat) (blocks : List PMBlock) : PMState :=
  let r := pmScanOL lines (lines.length - i) i []
  ⟨lines, r.2, blocks ++ [⟨"list", .items r.1, 1, []⟩]⟩

/-- Paragraph branch; the block is only appended when lines were collected. -/
def pmParaBranch (lines : List Chars) (i : Nat) (blocks : List PMBlock) : PMState :=
  let r := pmScanPara lines (lines.length - i) i []
  if !r.1.isEmpty then ⟨lines, r.2, blocks ++ [⟨"paragraph", .txt (joinSp r.1), 0, []⟩]⟩
  else ⟨lines, r.2, blocks⟩

/-- One iteration of the parse_markdown while-loop. -/
def pmStep : PMState → PMState ⊕ List PMBlock
  | ⟨lines, i, blocks⟩ =>
    if i < lines.length then
      if isBlank (lines.getD i []) then .inl ⟨lines, i + 1, blocks⟩
      else if (str "```").isPrefixOf (pstrip (lines.getD i [])) then
        .inl (pmCodeBranch lines i blocks)
      else if (str "$$").isPrefixOf (pstrip (lines.getD i [])) then
        match singleMathMatch (pstrip (lines.getD i [])) with
        | some (formula, afterM) => .inl (pmMathSingle lines i blocks formula afterM)
        | none => .inl (pmMathMulti lines i blocks)
      else if (['#'] : Chars).isPrefixOf (lines.getD i []) then
        .inl (pmHeadingBranch lines i blocks)
      else if (lines.getD i []).contains '|' && decide (i + 1 < lines.length) &&
          isTableSepLine (pstrip (lines.getD (i + 1) [])) then
        .inl (pmTableBranch lines i blocks)
      else if (['>'] : Chars).isPrefixOf (lines.getD i []) then
        .inl (pmQuoteBranch lines i blocks)
      else if isUnorderedStart (lines.getD i []) then
        .inl (pmULBranch lines i blocks)
      else if isOrderedStart (lines.getD i []) then
        .inl (pmOLBranch lines i blocks)
      else if isHrLine (lines.getD i []) then
        .inl ⟨lines, i + 1, blocks ++ [⟨"hr", .txt [], 0, []⟩]⟩
      else match imageLineMatch (pstrip (lines.getD i [])) with
        | some (alt, url) =>
            .inl ⟨lines, i + 1, blocks ++ [⟨"image", .txt alt, 0, url⟩]⟩
        | none => .inl (pmParaBranch lines i blocks)
    else .inr blocks

def pmRun : Nat → PMState → Option (List PMBlock)
  | 0, _ => none
  | fuel + 1, st =>
      match pmStep st with
      | .inl st2 => pmRun fuel st2
      | .inr bs => some bs

/-- parse_markdown, run with the given iteration budget. -/
def parse_markdown (fuel : Nat) (text : Chars) : Option (List PMBlock) :=
  pmRun fuel ⟨splitNl text, 0, []⟩

/-! ## MarkdownToWordConverter._split_into_blocks (src/converter.py)

The converter keeps its own copies of the extraction loops; the block-math
branch re-queues a same-line remainder by inserting it at the cursor
position (`lines = lines[:i] + [remaining] + lines[i:]`). -/

inductive CItem where
  | item (text : Chars)
  | task (checked : Bool) (text : Chars)
  deriving DecidableEq, Repr

inductive CContent where
  | txt (s : Chars)
  | codeB (language : Chars) (code : Chars)
  | listB (l : List (Nat × CItem))
  | imageB (alt : Chars) (url : Chars)
  deriving DecidableEq, Repr

structure CBlock where
  type_ : String
  content : CContent
  start_line : Nat
  deriving DecidableEq, Repr

structure CState where
  lines : List Chars
  i : Nat
  blocks : List CBlock
  deriving DecidableEq, Repr

/-- _extract_code_block scan: stops after a line whose strip is exactly three
backticks. -/
def cScanCode (lines : List Chars) : Nat → Nat → List Chars → List Chars × Nat
  | 0, i, acc => (acc.reverse, i)
  | fuel + 1, i, acc =>
      if pstrip (lines.getD i []) = str "```" then (acc.reverse, i + 1)
      else cScanCode lines fuel (i + 1) (lines.getD i [] :: acc)

/-- _extract_table scan. -/
def cScanTable (lines : List Chars) : Nat → Nat → List Chars → List Chars × Nat
  | 0, i, acc => (acc.reverse, i)
  | fuel + 1, i, acc =>
      if (lines.getD i []).contains '|' then
        cScanTable lines fuel (i + 1) (lines.getD i [] :: acc)
      else (acc.reverse, i)

/-- _extract_block_math multi-line scan: stops after a line whose strip ends
with a math fence, keeping the stripped line without its final two chars. -/
def cScanMath (lines : List Chars) : Nat → Nat → List Chars → List Chars × Nat
  | 0, i, acc => (acc.reverse, i)
  | fuel + 1, i, acc =>
      let lc := pstrip (lines.getD i [])
      if (str "$$").isSuffixOf lc then
        if lc ≠ str "$$" then ((lc.take (lc.length - 2) :: acc).reverse, i + 1)
        else (acc.reverse, i + 1)
      else cScanMath lines fuel (i + 1) (lines.getD i [] :: acc)

/-- _extract_block_math: returns (formula, new cursor, re-queued remainder). -/
def extract_block_math (lines : List Chars) (start : Nat) :
    Chars × Nat × Option Chars :=
  let firstLine := pstrip (lines.getD start [])
  match singleMathMatch firstLine with
  | some (formula, afterM) =>
      let remaining := pstrip afterM
      if (str "$$").isPrefixOf remaining then (pstrip formula, start, some remaining)
      else (pstrip formula, start + 1, none)
  | none =>
      let r := cScanMath lines (lines.length - (start + 1)) (start + 1) []
      (pstrip (joinNl r.1), r.2, none)

/-- _extract_quote scan. -/
def cScanQuote (lines : List Chars) : Nat → Nat → List Chars → List Chars × Nat
  | 0, i, acc => (acc.reverse, i)
  | fuel + 1, i, acc =>
      if (['>'] : Chars).isPrefixOf (lines.getD i []) then
        let line := lines.getD i []
        let content := if line.length > 1 then pstrip (line.drop 1) else []
        cScanQuote lines fuel (i + 1) (content :: acc)
      else (acc.reverse, i)

/-- _extract_list scan (the `ordered` flag of the Python signature is unused
by the body: the marker pattern accepts both syntaxes). -/
def cScanList (lines : List Chars) : Nat → Nat → List (Nat × CItem) →
    List (Nat × CItem) × Nat
  | 0, i, acc => (acc.reverse, i)
  | fuel + 1, i, acc =>
      match convListMatch (lines.getD i []) with
      | some (indent, text) =>
          let level := indent / 2
          let it := match taskMatch text with
            | some (checked, taskText) => CItem.task checked taskText
            | none => CItem.item text
          cScanList lines fuel (i + 1) ((level, it) :: acc)
      | none => (acc.reverse, i)

/-- _extract_paragraph scan with the converter's break conditions (the table
lookahead here additionally requires a pipe in the next line). -/
def cScanPara (lines : List Chars) : Nat → Nat → List Chars → List Chars × Nat
  | 0, i, acc => (acc.reverse, i)
  | fuel + 1, i, acc =>
      let line := lines.getD i []
      if isBlank line then (acc.reverse, i)
      else if (['#'] : Chars).isPrefixOf line then (acc.reverse, i)
      else if (str "```").isPrefixOf (pstrip line) then (acc.reverse, i)
      else if (str "$$").isPrefixOf (pstrip line) then (acc.reverse, i)
      else if (['>'] : Chars).isPrefixOf line then (acc.reverse, i)
      else if isUnorderedStart line then (acc.reverse, i)
      else if isOrderedStart line then (acc.reverse, i)
      else if isHrLine line then (acc.reverse, i)
      else if line.contains '|' && decide (i + 1 < lines.length) &&
          (lines.getD (i + 1) []).contains '|' &&
          isTableSepLine (lines.getD (i + 1) []) then (acc.reverse, i)
      else cScanPara lines fuel (i + 1) (line :: acc)

/-- One iteration of the _split_into_blocks while-loop. -/
def cStep (st : CState) : CState ⊕ List CBlock :=
  if st.i < st.lines.length then
    let lines := st.lines
    let i := st.i
    let line := lines.getD i []
    if isBlank line then .inl { st with i := i + 1 }
    else if (str "```").isPrefixOf (pstrip line) then
      let language := pstrip ((pstrip line).drop 3)
      let r := cScanCode lines (lines.length - (i + 1)) (i + 1) []
      .inl { lines, i := r.2,
             blocks := st.blocks ++ [⟨"code", .codeB language (joinNl r.1), i + 1⟩] }
    else if line.contains '|' && decide (i + 1 < lines.length) &&
        isTableSepLine (lines.getD (i + 1) []) then
      let r := cScanTable lines (lines.length - i) i []
      .inl { lines, i := r.2,
             blocks := st.blocks ++ [⟨"table", .txt (joinNl r.1), i + 1⟩] }
    else if (str "$$").isPrefixOf (pstrip line) then
      let r := extract_block_math lines i
      let newLines := match r.2.2 with
        | some remaining => lines.take r.2.1 ++ remaining :: lines.drop r.2.1
        | none => lines
      .inl { lines := newLines, i := r.2.1,
             blocks := st.blocks ++ [⟨"math_block", .txt r.1, i + 1⟩] }
    else if (['#'] : Chars).isPrefixOf line then
      let level := (line.takeWhile (fun c => c = '#')).length
      let content := pstrip (line.drop level)
      .inl { lines, i := i + 1,
             blocks := st.blocks ++
               [⟨"heading_" ++ toString (min level 6), .txt content, i + 1⟩] }
    else if (['>'] : Chars).isPrefixOf line then
      let r := cScanQuote lines (lines.length - i) i []
      .inl { lines, i := r.2,
             blocks := st.blocks ++ [⟨"quote", .txt (joinNl r.1), i + 1⟩] }
    else if isUnorderedStart line then
      let r := cScanList lines (lines.length - i) i []
      .inl { lines, i := r.2,
             blocks := st.blocks ++ [⟨"bullet_list", .listB r.1, i + 1⟩] }
    else if isOrderedStart line then
      let r := cScanList lines (lines.length - i) i []
      .inl { lines, i := r.2,
             blocks := st.blocks ++ [⟨"numbered_list", .listB r.1, i + 1⟩] }
    else if isHrLine line then
      .inl { lines, i := i + 1, blocks := st.blocks ++ [⟨"hr", .txt [], i + 1⟩] }
    else match imageLineMatch (pstrip line) with
      | some (alt, url) =>
          .inl { lines, i := i + 1,
                 blocks := st.blocks ++ [⟨"image", .imageB alt url, i + 1⟩] }
      | none =>
          let r := cScanPara lines (lines.length - i) i []
          .inl { lines, i := r.2,
                 blocks := st.blocks ++ [⟨"paragraph", .txt (joinSp r.1), i + 1⟩] }
  else .inr st.blocks

def cRun : Nat → CState → Option (List CBlock)
  | 0, _ => none
  | fuel + 1, st =>
      match cStep st with
      | .inl st2 => cRun fuel st2
      | .inr bs => some bs

/-- Iterate the splitter a fixed number of steps, exposing the loop state. -/
def cIter : Nat → CState → CState ⊕ List CBlock
  | 0, st => .inl st
  | n + 1, st =>
      match cStep st with
      | .inl st2 => cIter n st2
      | .inr bs => .inr bs

/-- _split_into_blocks, run with the given iteration budget. -/
def split_into_blocks (fuel : Nat) (text : Chars) : Option (List CBlock) :=
  cRun fuel ⟨splitNl text, 0, []⟩

/-! ## The block-math re-queue loop (claims C1 and C2)

On a line carrying two formulas, `_extract_block_math` returns the remainder
together with an unchanged cursor, and `_split_into_blocks` inserts the
remainder at the cursor without removing the consumed line; the consumed
line is therefore met again two iterations later, for ever.  The loop states
reachable from such a line all have the shape
`replicate m remainder ++ [original line]` with cursor at most `m`. -/

lemma getD_replicate_append_lt (y orig : Chars) :
    ∀ m i, i < m → (List.replicate m y ++ [orig]).getD i [] = y := by
  intro m
  induction m with
  | zero => intro i hi; omega
  | succ m ih =>
      intro i hi
      cases i with
      | zero => simp [List.replicate_succ]
      | succ j =>
          simp only [List.replicate_succ, List.cons_append, List.getD_cons_succ]
          exact ih j (by omega)

lemma getD_replicate_append_self (y orig : Chars) :
    ∀ m, (List.replicate m y ++ [orig]).getD m [] = orig := by
  intro m
  induction m with
  | zero => simp
  | succ m ih =>
      rw [List.replicate_succ, List.cons_append, List.getD_cons_succ]
      exact ih

/-- Non-termination of the splitter loop, given one step lemma for the
re-queued single-formula line `y` and one for the double-formula line
`orig` whose remainder is `y`. -/
lemma cRun_requeue_none (y orig fy fo : Chars)
    (hy : ∀ lines i blocks, i < lines.length → lines.getD i [] = y →
        cStep ⟨lines, i, blocks⟩ =
          .inl ⟨lines, i + 1, blocks ++ [⟨"math_block", .txt fy, i + 1⟩]⟩)
    (ho : ∀ lines i blocks, i < lines.length → lines.getD i [] = orig →
        cStep ⟨lines, i, blocks⟩ =
          .inl ⟨lines.take i ++ y :: lines.drop i, i,
                blocks ++ [⟨"math_block", .txt fo, i + 1⟩]⟩) :
    ∀ fuel m i blocks, i ≤ m →
      cRun fuel ⟨List.replicate m y ++ [orig], i, blocks⟩ = none := by
  intro fuel
  induction fuel with
  | zero => intro m i blocks _; rfl
  | succ n ih =>
      intro m i blocks him
      have hlen : i < (List.replicate m y ++ [orig]).length := by
        simp only [List.length_append, List.length_replicate, List.length_cons,
          List.length_nil]
        omega
      rcases Nat.lt_or_ge i m with h | h
      · have hget := getD_replicate_append_lt y orig m i h
        simp only [cRun]
        rw [hy _ _ _ hlen hget]
        exact ih m (i + 1) _ (by omega)
      · have hie : i = m := by omega
        subst hie
        have hget := getD_replicate_append_self y orig i
        simp only [cRun]
        rw [ho _ _ _ hlen hget]
        have htake : (List.replicate i y ++ [orig]).take i = List.replicate i y := by
          have := List.take_left (List.replicate i y) [orig]
          rwa [List.length_replicate] at this
        have hdrop : (List.replicate i y ++ [orig]).drop i = [orig] := by
          have := List.drop_left (List.replicate i y) [orig]
          rwa [List.length_replicate] at this
        rw [htake, hdrop, show List.replicate i y ++ y :: [orig]
            = List.replicate (i + 1) y ++ [orig] by
          rw [List.append_cons, ← List.replicate_succ']]
        exact ih (i + 1) i _ (by omega)

lemma cStep_line_y2 (lines : List Chars) (i : Nat) (blocks : List CBlock)
    (hlen : i < lines.length) (hline : lines.getD i [] = str "$$y^2$$") :
    cStep ⟨lines, i, blocks⟩ =
      .inl ⟨lines, i + 1, blocks ++ [⟨"math_block", .txt (str "y^2"), i + 1⟩]⟩ := by
  simp only [cStep, extract_block_math, hline]
  rw [if_pos hlen]
  rfl

lemma cStep_line_x2y2 (lines : List Chars) (i : Nat) (blocks : List CBlock)
    (hlen : i < lines.length) (hline : lines.getD i [] = str "$$x^2$$$$y^2$$") :
    cStep ⟨lines, i, blocks⟩ =
      .inl ⟨lines.take i ++ str "$$y^2$$" :: lines.drop i, i,
            blocks ++ [⟨"math_block", .txt (str "x^2"), i + 1⟩]⟩ := by
  simp only [cStep, extract_block_math, hline]
  rw [if_pos hlen]
  rfl

lemma cStep_line_b (lines : List Chars) (i : Nat) (blocks : List CBlock)
    (hlen : i < lines.length) (hline : lines.getD i [] = str "$$b$$") :
    cStep ⟨lines, i, blocks⟩ =
      .inl ⟨lines, i + 1, blocks ++ [⟨"math_block", .txt (str "b"), i + 1⟩]⟩ := by
  simp only [cStep, extract_block_math, hline]
  rw [if_pos hlen]
  rfl

lemma cStep_line_ab (lines : List Chars) (i : Nat) (blocks : List CBlock)
    (hlen : i < lines.length) (hline : lines.getD i [] = str "$$a$$$$b$$") :
    cStep ⟨lines, i, blocks⟩ =
      .inl ⟨lines.take i ++ str "$$b$$" :: lines.drop i, i,
            blocks ++ [⟨"math_block", .txt (str "a"), i + 1⟩]⟩ := by
  simp only [cStep, extract_block_math, hline]
  rw [if_pos hlen]
  rfl

/-- **C1.**  On the line `$$x^2$$$$y^2$$`, parse_markdown does emit the two
consecutive math blocks `x^2` and `y^2`, but the converter's
`_split_into_blocks` never terminates: it inserts the re-queued remainder at
the cursor without dropping the already consumed line, so no fuel suffices.
The claim that both splitters emit the two blocks is therefore wrong for the
converter (this is the code bug behind the claim). -/
theorem same_line_formulas_requeue :
    parse_markdown 10 (str "$$x^2$$$$y^2$$") =
      some [⟨"math_block", .txt (str "x^2"), 0, []⟩,
            ⟨"math_block", .txt (str "y^2"), 0, []⟩] ∧
    ∀ fuel, split_into_blocks fuel (str "$$x^2$$$$y^2$$") = none := by
  refine ⟨rfl, fun fuel => ?_⟩
  have h := cRun_requeue_none (str "$$y^2$$") (str "$$x^2$$$$y^2$$")
    (str "y^2") (str "x^2") cStep_line_y2 cStep_line_x2y2 fuel 0 0 [] (Nat.le_refl 0)
  simpa [split_into_blocks, splitNl, str] using h

/-- **C2.**  The partition invariant fails on the balanced-fence input
`$$a$$$$b$$`: the splitter never returns a block list (first conjunct), and
after three iterations the trace shows the single source line already
consumed by two blocks with content `a`, the second carrying start_line 2 on
a one-line input (second conjunct). -/
theorem splitter_partition_invariant :
    (∀ fuel, split_into_blocks fuel (str "$$a$$$$b$$") = none) ∧
    cIter 3 ⟨splitNl (str "$$a$$$$b$$"), 0, []⟩ =
      .inl ⟨[str "$$b$$", str "$$b$$", str "$$a$$$$b$$"], 1,
            [⟨"math_block", .txt (str "a"), 1⟩,
             ⟨"math_block", .txt (str "b"), 1⟩,
             ⟨"math_block", .txt (str "a"), 2⟩]⟩ := by
  refine ⟨fun fuel => ?_, rfl⟩
  have h := cRun_requeue_none (str "$$b$$") (str "$$a$$$$b$$")
    (str "b") (str "a") cStep_line_b cStep_line_ab fuel 0 0 [] (Nat.le_refl 0)
  simpa [split_into_blocks, splitNl, str] using h

/-! ## List levels and homogeneity (claims C6 and C7) -/

lemma convListMatch_indent (l : Chars) (indent : Nat) (text : Chars)
    (h : convListMatch l = some (indent, text)) :
    indent = (l.takeWhile pyWs).length := by
  simp only [convListMatch] at h
  split at h
  · split at h
    · exact absurd h (by simp)
    · simp only [Option.some.injEq, Prod.mk.injEq] at h
      exact h.1.symm
  · exact absurd h (by simp)

lemma cScanList_acc (lines : List Chars) :
    ∀ fuel i acc,
      (cScanList lines fuel i acc).1 = acc.reverse ++ (cScanList lines fuel i []).1 := by
  intro fuel
  induction fuel with
  | zero => intro i acc; simp [cScanList]
  | succ n ih =>
      intro i acc
      simp only [cScanList]
      split
      · rw [ih (i + 1), ih (i + 1) [_]]
        simp
      · simp

/-- Every item produced by the converter list scan has level =
leading-indent width of its source line divided by two. -/
lemma cScanList_level (lines : List Chars) :
    ∀ fuel i, ∀ p ∈ (cScanList lines fuel i []).1,
      ∃ j, i ≤ j ∧ p.1 = ((lines.getD j []).takeWhile pyWs).length / 2 := by
  intro fuel
  induction fuel with
  | zero => intro i p hp; simp [cScanList] at hp
  | succ n ih =>
      intro i p hp
      simp only [cScanList] at hp
      split at hp
      · rename_i indent text hm
        rw [cScanList_acc] at hp
        simp only [List.reverse_cons, List.reverse_nil, List.nil_append,
          List.singleton_append, List.mem_cons] at hp
        rcases hp with hp | hp
        · refine ⟨i, Nat.le_refl i, ?_⟩
          rw [hp]
          simpa using congrArg (fun n => n / 2) (convListMatch_indent _ _ _ hm)
        · obtain ⟨j, hij, hj⟩ := ih (i + 1) p hp
          exact ⟨j, by omega, hj⟩
      · simp at hp

/-- **C6 (amended).**  In the converter splitter the nested bullet list
yields one block whose items carry levels 0, 1, 2, and in general every item
collected by `_extract_list` has level = leading-indent width ÷ 2 of its
source line.  (parse_markdown is excluded: its unordered branch records no
level, see the counterexample.) -/
theorem converter_list_levels :
    split_into_blocks 10 (str "- a\n  - b\n    - c") =
      some [⟨"bullet_list",
             .listB [(0, .item (str "a")), (1, .item (str "b")), (2, .item (str "c"))],
             1⟩] ∧
    ∀ lines fuel i, ∀ p ∈ (cScanList lines fuel i []).1,
      ∃ j, i ≤ j ∧ p.1 = ((lines.getD j []).takeWhile pyWs).length / 2 :=
  ⟨rfl, fun lines fuel i => cScanList_level lines fuel i⟩

theorem converter_list_levels_witness :
    ((1 : Nat), CItem.item (str "b")) ∈ (cScanList [str "- a", str "  - b"] 2 0 []).1 ∧
    ∃ j, 0 ≤ j ∧ ((1 : Nat), CItem.item (str "b")).1 =
      (([str "- a", str "  - b"].getD j []).takeWhile pyWs).length / 2 :=
  ⟨by decide,
   converter_list_levels.2 [str "- a", str "  - b"] 2 0 (1, CItem.item (str "b"))
     (by decide)⟩

/-- **C6 (counterexample).**  parse_markdown flattens unordered items: the
indented input and the flat input produce identical outputs, so its items
cannot carry the claimed levels 0, 1, 2 (the indentation is erased by the
bullet-marker substitution before items are stored, and the items carry no
level field at all). -/
theorem unordered_indent_ignored :
    parse_markdown 10 (str "- a\n  - b\n    - c") =
      parse_markdown 10 (str "- a\n- b\n- c") ∧
    parse_markdown 10 (str "- a\n  - b\n    - c") =
      some [⟨"list", .items [.item (str "a"), .item (str "b"), .item (str "c")], 0, []⟩] :=
  ⟨rfl, rfl⟩

/-- Marker of the ordered-branch items of parse_markdown. -/
def pmItemIsOrd : PMItem → Bool
  | .ord _ _ => true
  | _ => false

lemma pmScanUL_not_ord (lines : List Chars) :
    ∀ fuel i acc, (∀ it ∈ acc, pmItemIsOrd it = false) →
      ∀ it ∈ (pmScanUL lines fuel i acc).1, pmItemIsOrd it = false := by
  intro fuel
  induction fuel with
  | zero =>
      intro i acc hacc it hit
      simp only [pmScanUL, List.mem_reverse] at hit
      exact hacc it hit
  | succ n ih =>
      intro i acc hacc it hit
      simp only [pmScanUL] at hit
      split at hit
      · refine ih (i + 1) _ ?_ it hit
        intro it2 hit2
        rcases List.mem_cons.mp hit2 with h | h
        · subst h
          cases htm : taskMatch (stripBulletMarker (lines.getD i [])) with
          | some p => simp [htm, pmItemIsOrd]
          | none => simp [htm, pmItemIsOrd]
        · exact hacc it2 h
      · simp only [List.mem_reverse] at hit
        exact hacc it hit

lemma pmScanOL_ord (lines : List Chars) :
    ∀ fuel i acc, (∀ it ∈ acc, pmItemIsOrd it = true) →
      ∀ it ∈ (pmScanOL lines fuel i acc).1, pmItemIsOrd it = true := by
  intro fuel
  induction fuel with
  | zero =>
      intro i acc hacc it hit
      simp only [pmScanOL, List.mem_reverse] at hit
      exact hacc it hit
  | succ n ih =>
      intro i acc hacc it hit
      simp only [pmScanOL] at hit
      split at hit
      · refine ih (i + 1) _ ?_ it hit
        intro it2 hit2
        cases hom : orderedItemMatch (lines.getD i []) with
        | some p =>
            rw [hom] at hit2
            rcases List.mem_cons.mp hit2 with h | h
            · subst h; rfl
            · exact hacc it2 h
        | none =>
            rw [hom] at hit2
            exact hacc it2 hit2
      · simp only [List.mem_reverse] at hit
        exact hacc it hit

/-- A block whose content is an item list has homogeneous items. -/
def blockHomog (b : PMBlock) : Prop :=
  ∀ its, b.content = .items its →
    (∀ it ∈ its, pmItemIsOrd it = false) ∨ (∀ it ∈ its, pmItemIsOrd it = true)

lemma blockHomog_txt (t : String) (s : Chars) (lv : Nat) (lg : Chars) :
    blockHomog ⟨t, .txt s, lv, lg⟩ := by
  intro its hits
  exact absurd hits (by simp)

lemma homog_snoc (blocks : List PMBlock) (nb : PMBlock)
    (hb : ∀ b ∈ blocks, blockHomog b) (hnb : blockHomog nb) :
    ∀ b ∈ blocks ++ [nb], blockHomog b := by
  intro b hmem
  rcases List.mem_append.mp hmem with h | h
  · exact hb b h
  · rw [List.mem_singleton.mp h]
    exact hnb

lemma pmCodeBranch_homog (lines : List Chars) (i : Nat) (blocks : List PMBlock)
    (hb : ∀ b ∈ blocks, blockHomog b) :
    ∀ b ∈ (pmCodeBranch lines i blocks).blocks, blockHomog b := by
  simp only [pmCodeBranch]
  exact homog_snoc _ _ hb (blockHomog_txt _ _ _ _)

lemma pmMathSingle_homog (lines : List Chars) (i : Nat) (blocks : List PMBlock)
    (formula afterM : Chars) (hb : ∀ b ∈ blocks, blockHomog b) :
    ∀ b ∈ (pmMathSingle lines i blocks formula afterM).blocks, blockHomog b := by
  simp only [pmMathSingle]
  split <;> exact homog_snoc _ _ hb (blockHomog_txt _ _ _ _)

lemma pmMathMulti_homog (lines : List Chars) (i : Nat) (blocks : List PMBlock)
    (hb : ∀ b ∈ blocks, blockHomog b) :
    ∀ b ∈ (pmMathMulti lines i blocks).blocks, blockHomog b := by
  simp only [pmMathMulti]
  exact homog_snoc _ _ hb (blockHomog_txt _ _ _ _)

lemma pmHeadingBranch_homog (lines : List Chars) (i : Nat) (blocks : List PMBlock)
    (hb : ∀ b ∈ blocks, blockHomog b) :
    ∀ b ∈ (pmHeadingBranch lines i blocks).blocks, blockHomog b := by
  simp only [pmHeadingBranch]
  exact homog_snoc _ _ hb (blockHomog_txt _ _ _ _)

lemma pmTableBranch_homog (lines : List Chars) (i : Nat) (blocks : List PMBlock)
    (hb : ∀ b ∈ blocks, blockHomog b) :
    ∀ b ∈ (pmTableBranch lines i blocks).blocks, blockHomog b := by
  simp only [pmTableBranch]
  exact homog_snoc _ _ hb (blockHomog_txt _ _ _ _)

lemma pmQuoteBranch_homog (lines : List Chars) (i : Nat) (blocks : List PMBlock)
    (hb : ∀ b ∈ blocks, blockHomog b) :
    ∀ b ∈ (pmQuoteBranch lines i blocks).blocks, blockHomog b := by
  simp only [pmQuoteBranch]
  exact homog_snoc _ _ hb (blockHomog_txt _ _ _ _)

lemma pmULBranch_homog (lines : List Chars) (i : Nat) (blocks : List PMBlock)
    (hb : ∀ b ∈ blocks, blockHomog b) :
    ∀ b ∈ (pmULBranch lines i blocks).blocks, blockHomog b := by
  simp only [pmULBranch]
  refine homog_snoc _ _ hb ?_
  intro its hits
  injection hits with h3
  subst h3
  exact Or.inl (pmScanUL_not_ord _ _ _ _ (by simp))

lemma pmOLBranch_homog (lines : List Chars) (i : Nat) (blocks : List PMBlock)
    (hb : ∀ b ∈ blocks, blockHomog b) :
    ∀ b ∈ (pmOLBranch lines i blocks).blocks, blockHomog b := by
  simp only [pmOLBranch]
  refine homog_snoc _ _ hb ?_
  intro its hits
  injection hits with h3
  subst h3
  exact Or.inr (pmScanOL_ord _ _ _ _ (by simp))

lemma pmParaBranch_homog (lines : List Chars) (i : Nat) (blocks : List PMBlock)
    (hb : ∀ b ∈ blocks, blockHomog b) :
    ∀ b ∈ (pmParaBranch lines i blocks).blocks, blockHomog b := by
  simp only [pmParaBranch]
  split
  · exact homog_snoc _ _ hb (blockHomog_txt _ _ _ _)
  · exact hb

lemma pmStep_inl_homog (st st2 : PMState) (h : pmStep st = .inl st2)
    (hb : ∀ b ∈ st.blocks, blockHomog b) : ∀ b ∈ st2.blocks, blockHomog b := by
  obtain ⟨lines, i, blocks⟩ := st
  simp only at hb
  rw [pmStep] at h
  by_cases hc : i < lines.length
  case neg =>
    rw [if_neg hc] at h
    exact absurd h (by simp)
  rw [if_pos hc] at h
  by_cases h1 : isBlank (lines.getD i []) = true
  case pos =>
    rw [if_pos h1] at h
    injection h with h2
    subst h2
    exact hb
  rw [if_neg h1] at h
  by_cases h2 : (str "```").isPrefixOf (pstrip (lines.getD i [])) = true
  case pos =>
    rw [if_pos h2] at h
    injection h with h2
    subst h2
    exact pmCodeBranch_homog _ _ _ hb
  rw [if_neg h2] at h
  by_cases h3 : (str "$$").isPrefixOf (pstrip (lines.getD i [])) = true
  case pos =>
    rw [if_pos h3] at h
    rcases hm : singleMathMatch (pstrip (lines.getD i [])) with _ | ⟨formula, afterM⟩
    · rw [hm] at h
      injection h with h2
      subst h2
      exact pmMathMulti_homog _ _ _ hb
    · rw [hm] at h
      injection h with h2
      subst h2
      exact pmMathSingle_homog _ _ _ _ _ hb
  rw [if_neg h3] at h
  by_cases h4 : (['#'] : Chars).isPrefixOf (lines.getD i []) = true
  case pos =>
    rw [if_pos h4] at h
    injection h with h2
    subst h2
    exact pmHeadingBranch_homog _ _ _ hb
  rw [if_neg h4] at h
  by_cases h5 : ((lines.getD i []).contains '|' && decide (i + 1 < lines.length) &&
      isTableSepLine (pstrip (lines.getD (i + 1) []))) = true
  case pos =>
    rw [if_pos h5] at h
    injection h with h2
    subst h2
    exact pmTableBranch_homog _ _ _ hb
  rw [if_neg h5] at h
  by_cases h6 : (['>'] : Chars).isPrefixOf (lines.getD i []) = true
  case pos =>
    rw [if_pos h6] at h
    injection h with h2
    subst h2
    exact pmQuoteBranch_homog _ _ _ hb
  rw [if_neg h6] at h
  by_cases h7 : isUnorderedStart (lines.getD i []) = true
  case pos =>
    rw [if_pos h7] at h
    injection h with h2
    subst h2
    exact pmULBranch_homog _ _ _ hb
  rw [if_neg h7] at h
  by_cases h8 : isOrderedStart (lines.getD i []) = true
  case pos =>
    rw [if_pos h8] at h
    injection h with h2
    subst h2
    exact pmOLBranch_homog _ _ _ hb
  rw [if_neg h8] at h
  by_cases h9 : isHrLine (lines.getD i []) = true
  case pos =>
    rw [if_pos h9] at h
    injection h with h2
    subst h2
    exact homog_snoc _ _ hb (blockHomog_txt _ _ _ _)
  rw [if_neg h9] at h
  rcases him : imageLineMatch (pstrip (lines.getD i [])) with _ | ⟨alt, url⟩
  · rw [him] at h
    injection h with h2
    subst h2
    exact pmParaBranch_homog _ _ _ hb
  · rw [him] at h
    injection h with h2
    subst h2
    exact homog_snoc _ _ hb (blockHomog_txt _ _ _ _)

/-- In-range states always step to another state. -/
lemma pmStep_isInl (lines : List Chars) (i : Nat) (blocks : List PMBlock)
    (hc : i < lines.length) :
    ∃ st2, pmStep ⟨lines, i, blocks⟩ = .inl st2 := by
  rw [pmStep, if_pos hc]
  by_cases h1 : isBlank (lines.getD i []) = true
  case pos => exact ⟨_, by rw [if_pos h1]⟩
  rw [if_neg h1]
  by_cases h2 : (str "```").isPrefixOf (pstrip (lines.getD i [])) = true
  case pos => exact ⟨_, by rw [if_pos h2]⟩
  rw [if_neg h2]
  by_cases h3 : (str "$$").isPrefixOf (pstrip (lines.getD i [])) = true
  case pos =>
    rw [if_pos h3]
    rcases hm : singleMathMatch (pstrip (lines.getD i [])) with _ | ⟨formula, afterM⟩
    · exact ⟨_, rfl⟩
    · exact ⟨_, rfl⟩
  rw [if_neg h3]
  by_cases h4 : (['#'] : Chars).isPrefixOf (lines.getD i []) = true
  case pos => exact ⟨_, by rw [if_pos h4]⟩
  rw [if_neg h4]
  by_cases h5 : ((lines.getD i []).contains '|' && decide (i + 1 < lines.length) &&
      isTableSepLine (pstrip (lines.getD (i + 1) []))) = true
  case pos => exact ⟨_, by rw [if_pos h5]⟩
  rw [if_neg h5]
  by_cases h6 : (['>'] : Chars).isPrefixOf (lines.getD i []) = true
  case pos => exact ⟨_, by rw [if_pos h6]⟩
  rw [if_neg h6]
  by_cases h7 : isUnorderedStart (lines.getD i []) = true
  case pos => exact ⟨_, by rw [if_pos h7]⟩
  rw [if_neg h7]
  by_cases h8 : isOrderedStart (lines.getD i []) = true
  case pos => exact ⟨_, by rw [if_pos h8]⟩
  rw [if_neg h8]
  by_cases h9 : isHrLine (lines.getD i []) = true
  case pos => exact ⟨_, by rw [if_pos h9]⟩
  rw [if_neg h9]
  rcases him : imageLineMatch (pstrip (lines.getD i [])) with _ | ⟨alt, url⟩
  · exact ⟨_, rfl⟩
  · exact ⟨_, rfl⟩

lemma pmStep_inr_eq (st : PMState) (bs : List PMBlock) (h : pmStep st = .inr bs) :
    bs = st.blocks := by
  obtain ⟨lines, i, blocks⟩ := st
  by_cases hc : i < lines.length
  · obtain ⟨st2, he⟩ := pmStep_isInl lines i blocks hc
    rw [he] at h
    exact absurd h (by simp)
  · rw [pmStep, if_neg hc] at h
    injection h with h2
    exact h2.symm

lemma pmRun_homog : ∀ fuel st blocks, pmRun fuel st = some blocks →
    (∀ b ∈ st.blocks, blockHomog b) → ∀ b ∈ blocks, blockHomog b := by
  intro fuel
  induction fuel with
  | zero => intro st blocks h; exact absurd h (by simp [pmRun])
  | succ n ih =>
      intro st blocks h hb
      simp only [pmRun] at h
      rcases hstep : pmStep st with st2 | bs
      · rw [hstep] at h
        exact ih st2 blocks h (pmStep_inl_homog st st2 hstep hb)
      · rw [hstep] at h
        simp only [Option.some.injEq] at h
        subst h
        rw [pmStep_inr_eq st bs hstep]
        exact hb

/-- **C7 (amended).**  Every list block of parse_markdown is homogeneous —
its items are all ordered or all unordered — and a marker switch on
consecutive lines ends the block (concrete split shown); the converter's
`_extract_list`, by contrast, accepts both marker syntaxes once a list has
begun (see the counterexample). -/
theorem parse_markdown_list_homogeneous :
    (∀ fuel text blocks, parse_markdown fuel text = some blocks →
      ∀ b ∈ blocks, ∀ its, b.content = .items its →
        (∀ it ∈ its, pmItemIsOrd it = false) ∨ (∀ it ∈ its, pmItemIsOrd it = true)) ∧
    parse_markdown 10 (str "- a\n1. b") =
      some [⟨"list", .items [.item (str "a")], 0, []⟩,
            ⟨"list", .items [.ord 0 (str "b")], 1, []⟩] := by
  constructor
  · intro fuel text blocks h b hbm its hits
    exact pmRun_homog fuel ⟨splitNl text, 0, []⟩ blocks h (by simp) b hbm its hits
  · rfl

theorem parse_markdown_list_homogeneous_witness :
    (∀ it ∈ [PMItem.item (str "a")], pmItemIsOrd it = false) ∨
    (∀ it ∈ [PMItem.item (str "a")], pmItemIsOrd it = true) :=
  parse_markdown_list_homogeneous.1 10 (str "- a\n1. b")
    [⟨"list", .items [.item (str "a")], 0, []⟩,
     ⟨"list", .items [.ord 0 (str "b")], 1, []⟩]
    parse_markdown_list_homogeneous.2
    ⟨"list", .items [.item (str "a")], 0, []⟩ (by simp)
    [PMItem.item (str "a")] rfl

/-- **C7 (counterexample).**  A switch from bullet to ordered marker syntax
does not end the converter's list block: `- a` followed by `1. b` yields a
single bullet_list block containing both lines as items, so converter list
blocks are not homogeneous. -/
theorem list_marker_switch_merged :
    split_into_blocks 10 (str "- a\n1. b") =
      some [⟨"bullet_list", .listB [(0, .item (str "a")), (0, .item (str "b"))], 1⟩] :=
  rfl

/-! ## Inline tokenizer (src/parser.py, parse_inline)

The Python function runs re.finditer with one alternation of fourteen
patterns, emitting the plain text between matches, then classifies each full
match by its leading characters.  Each alternative below returns the full
match and the remainder of the string; the scanner carries the character
before the current position for the two lookbehinds.  Lazy `.+?` bodies are
resolved by `lazyDotQ` (shortest non-empty newline-free run followed by the
closing delimiter). -/

inductive InlineType where
  | text | bold | italic | boldItalic | code | math | link | image
  | strikethrough | superscript | subscript | linebreak
  deriving DecidableEq, Repr

structure InlineElement where
  type_ : InlineType
  content : Chars
  url : Option Chars := none
  deriving DecidableEq, Repr

/-- Alternative 1, `!\[[^\]]*\]\([^\)]+\)`. -/
def altImage (rest : Chars) : Option (Chars × Chars) :=
  match rest with
  | '!' :: '[' :: r1 =>
      let alt := r1.takeWhile (fun c => c ≠ ']')
      match r1.drop alt.length with
      | ']' :: '(' :: r3 =>
          let url := r3.takeWhile (fun c => c ≠ ')')
          if url.isEmpty then none
          else match r3.drop url.length with
            | ')' :: r5 => some ('!' :: '[' :: (alt ++ ']' :: '(' :: (url ++ [')'])), r5)
            | _ => none
      | _ => none
  | _ => none

/-- Alternative 2, `\[[^\]]+\]\([^\)]+\)`. -/
def altLink (rest : Chars) : Option (Chars × Chars) :=
  match rest with
  | '[' :: r1 =>
      let txt := r1.takeWhile (fun c => c ≠ ']')
      if txt.isEmpty then none
      else match r1.drop txt.length with
        | ']' :: '(' :: r3 =>
            let url := r3.takeWhile (fun c => c ≠ ')')
            if url.isEmpty then none
            else match r3.drop url.length with
              | ')' :: r5 => some ('[' :: (txt ++ ']' :: '(' :: (url ++ [')'])), r5)
              | _ => none
        | _ => none
  | _ => none

/-- A delimiter pair with a `[^d]+` body, alternatives 3 (backtick) and 4
(dollar). -/
def altDelim (d : Char) (rest : Chars) : Option (Chars × Chars) :=
  match rest with
  | c :: r1 =>
      if c = d then
        let mid := r1.takeWhile (fun x => x ≠ d)
        if mid.isEmpty then none
        else match r1.drop mid.length with
          | e :: r3 => if e = d then some (d :: (mid ++ [d]), r3) else none
          | [] => none
      else none
  | [] => none

/-- Alternative 5, `<br\s*/?>`. -/
def altBr (rest : Chars) : Option (Chars × Chars) :=
  match rest with
  | '<' :: 'b' :: 'r' :: r1 =>
      let ws := r1.takeWhile pyWs
      match r1.drop ws.length with
      | '/' :: '>' :: r3 => some ('<' :: 'b' :: 'r' :: (ws ++ ['/', '>']), r3)
      | '>' :: r3 => some ('<' :: 'b' :: 'r' :: (ws ++ ['>']), r3)
      | _ => none
  | _ => none

/-- Alternatives 6 and 7, `<sup>[^<]+</sup>` and `<sub>[^<]+</sub>`;
`tag` is the final tag letter (`p` or `b`). -/
def altSupSub (tag : Char) (rest : Chars) : Option (Chars × Chars) :=
  match rest with
  | '<' :: 's' :: 'u' :: t :: '>' :: r1 =>
      if t = tag then
        let mid := r1.takeWhile (fun c => c ≠ '<')
        if mid.isEmpty then none
        else match r1.drop mid.length with
          | '<' :: '/' :: 's' :: 'u' :: t2 :: '>' :: r3 =>
              if t2 = tag then
                some ('<' :: 's' :: 'u' :: tag :: '>' ::
                  (mid ++ '<' :: '/' :: 's' :: 'u' :: tag :: '>' :: []), r3)
              else none
          | _ => none
      else none
  | _ => none

/-- A lazy-body pair `open.+?open` (alternatives 8-11 and 14). -/
def altLazyPair (openM : Chars) (rest : Chars) : Option (Chars × Chars) :=
  if openM.isPrefixOf rest then
    match lazyDotQ openM (rest.drop openM.length) with
    | some (mid, r) => some (openM ++ mid ++ openM, r)
    | none => none
  else none

/-- Alternatives 12 and 13,
`(?<!d)d(?!d)([^d\s][^d]*[^d\s]|[^d\s])d(?!d)` with `d` the star or the
underscore: the body forces the closing delimiter to be the first `d` after
the opener, so the match is the span up to that `d`, provided the inner
edges are non-whitespace and the delimiters are not doubled. -/
def altItalic (d : Char) (prev : Option Char) (rest : Chars) :
    Option (Chars × Chars) :=
  match rest with
  | c :: r1 =>
      if c = d then
        if prev = some d then none
        else
          let mid := r1.takeWhile (fun x => x ≠ d)
          if mid.isEmpty then none
          else if pyWs (mid.headD ' ') || pyWs (mid.getLastD ' ') then none
          else match r1.drop mid.length with
            | e :: e2 :: r2 =>
                if e = d then (if e2 = d then none else some (d :: (mid ++ [d]), e2 :: r2))
                else none
            | [e] => if e = d then some (d :: (mid ++ [d]), []) else none
            | [] => none
      else none
  | [] => none

/-- The full alternation, in pattern order. -/
def tryMatch (prev : Option Char) (rest : Chars) : Option (Chars × Chars) :=
  altImage rest <|> altLink rest <|> altDelim '`' rest <|> altDelim '$' rest <|>
  altBr rest <|> altSupSub 'p' rest <|> altSupSub 'b' rest <|>
  altLazyPair (str "***") rest <|> altLazyPair (str "___") rest <|>
  altLazyPair (str "**") rest <|> altLazyPair (str "__") rest <|>
  altItalic '*' prev rest <|> altItalic '_' prev rest <|>
  altLazyPair (str "~~") rest

/-- Inner full match `^\*([^\*]+)\*$` (and the underscore twin) used by the
italic classification branch. -/
def italInner (d : Char) (full : Chars) : Option Chars :=
  match full with
  | c :: r1 =>
      if c = d then
        let mid := r1.takeWhile (fun x => x ≠ d)
        if mid.isEmpty then none
        else match r1.drop mid.length with
          | [e] => if e = d then some mid else none
          | _ => none
      else none
  | [] => none

/-- Classification of a full match by its leading characters, mirroring the
if/elif chain of parse_inline; a branch whose inner re.match fails appends
nothing (`none`). -/
def elementOf (full : Chars) : Option InlineElement :=
  if (str "![").isPrefixOf full then
    match full with
    | '!' :: '[' :: r1 =>
        let alt := r1.takeWhile (fun c => c ≠ ']')
        match r1.drop alt.length with
        | ']' :: '(' :: r3 =>
            let url := r3.takeWhile (fun c => c ≠ ')')
            if url.isEmpty then none else some ⟨.image, alt, some url⟩
        | _ => none
    | _ => none
  else if (['['] : Chars).isPrefixOf full then
    match full with
    | '[' :: r1 =>
        let txt := r1.takeWhile (fun c => c ≠ ']')
        if txt.isEmpty then none
        else match r1.drop txt.length with
          | ']' :: '(' :: r3 =>
              let url := r3.takeWhile (fun c => c ≠ ')')
              if url.isEmpty then none else some ⟨.link, txt, some url⟩
          | _ => none
    | _ => none
  else if (['`'] : Chars).isPrefixOf full then
    some ⟨.code, (full.drop 1).dropLast, none⟩
  else if (['$'] : Chars).isPrefixOf full then
    some ⟨.math, (full.drop 1).dropLast, none⟩
  else if (str "<br").isPrefixOf full then
    some ⟨.linebreak, ['\n'], none⟩
  else if (str "<sup>").isPrefixOf full then
    some ⟨.superscript, (full.drop 5).take (full.length - 11), none⟩
  else if (str "<sub>").isPrefixOf full then
    some ⟨.subscript, (full.drop 5).take (full.length - 11), none⟩
  else if (str "***").isPrefixOf full || (str "___").isPrefixOf full then
    some ⟨.boldItalic, (full.drop 3).take (full.length - 6), none⟩
  else if (str "**").isPrefixOf full then
    some ⟨.bold, (full.drop 2).take (full.length - 4), none⟩
  else if (str "__").isPrefixOf full then
    some ⟨.bold, (full.drop 2).take (full.length - 4), none⟩
  else if (str "~~").isPrefixOf full then
    some ⟨.strikethrough, (full.drop 2).take (full.length - 4), none⟩
  else if (['*'] : Chars).isPrefixOf full then
    match italInner '*' full with
    | some mid => some ⟨.italic, mid, none⟩
    | none =>
        some ⟨.italic, if full.length > 2 then (full.drop 1).dropLast else full, none⟩
  else if (['_'] : Chars).isPrefixOf full then
    match italInner '_' full with
    | some mid => some ⟨.italic, mid, none⟩
    | none =>
        some ⟨.italic, if full.length > 2 then (full.drop 1).dropLast else full, none⟩
  else none

/-- The finditer scan: text between matches becomes text elements, each match
is classified, and the character before the cursor is carried for the
lookbehinds.  One unit of fuel covers at least one consumed character, so
`length + 1` fuel always reaches the end of the string. -/
def scanGo : Nat → Option Char → Chars → Chars → List InlineElement →
    List InlineElement
  | 0, _, _, gap, acc =>
      (if gap.isEmpty then acc else ⟨.text, gap.reverse, none⟩ :: acc).reverse
  | fuel + 1, prev, rest, gap, acc =>
      match rest with
      | [] => (if gap.isEmpty then acc else ⟨.text, gap.reverse, none⟩ :: acc).reverse
      | c :: rest2 =>
          match tryMatch prev rest with
          | some (m, r) =>
              let acc2 := if gap.isEmpty then acc else ⟨.text, gap.reverse, none⟩ :: acc
              let acc3 := match elementOf m with
                | some e => e :: acc2
                | none => acc2
              scanGo fuel (some (m.getLastD ' ')) r [] acc3
          | none => scanGo fuel (some c) rest2 (c :: gap) acc

def parse_inline (s : Chars) : List InlineElement :=
  let es := scanGo (s.length + 1) none s [] []
  if es.isEmpty then [⟨.text, s, none⟩] else es

/-- **C5.**  The inline round-trip fails: on `***a**` the alternation matches
the whole string through the plain-bold pattern (`\*\*.+?\*\*`, body `*a`),
but the classification chain sees the leading `***` and strips three
delimiter characters from both ends, leaving a single bold_italic element
with empty content — the letter `a` is lost, so concatenating the element
contents cannot reconstruct the block's semantic text. -/
theorem inline_roundtrip_loss :
    parse_inline (str "***a**") = [⟨.boldItalic, [], none⟩] ∧
    ((parse_inline (str "***a**")).map InlineElement.content).flatten = [] ∧
    'a' ∈ str "***a**" :=
  ⟨rfl, rfl, by decide⟩

/-! ## Totality of the inline tokenizer (claim C10) -/

/-- No alternative matches at any position of `rest`. -/
def noMatchFrom : Nat → Option Char → Chars → Bool
  | 0, _, _ => true
  | fuel + 1, prev, rest =>
      match rest with
      | [] => true
      | c :: rest2 =>
          match tryMatch prev rest with
          | some _ => false
          | none => noMatchFrom fuel (some c) rest2

def noInlineMatch (s : Chars) : Bool := noMatchFrom (s.length + 1) none s

lemma scanGo_noMatch : ∀ fuel prev (rest gap : Chars) acc,
    rest.length < fuel → noMatchFrom fuel prev rest = true →
    scanGo fuel prev rest gap acc =
      (if (rest.reverse ++ gap).isEmpty then acc
       else ⟨.text, (rest.reverse ++ gap).reverse, none⟩ :: acc).reverse := by
  intro fuel
  induction fuel with
  | zero => intro prev rest gap acc h; omega
  | succ n ih =>
      intro prev rest gap acc hlen hnm
      cases rest with
      | nil => simp [scanGo]
      | cons c rest2 =>
          simp only [noMatchFrom] at hnm
          simp only [scanGo]
          cases htm : tryMatch prev (c :: rest2) with
          | some p =>
              rw [htm] at hnm
              exact absurd hnm (by simp)
          | none =>
              rw [htm] at hnm
              show scanGo n (some c) rest2 (c :: gap) acc = _
              have hnm2 : noMatchFrom n (some c) rest2 = true := hnm
              rw [ih (some c) rest2 (c :: gap) acc (by simp at hlen ⊢; omega) hnm2]
              have hl : rest2.reverse ++ (c :: gap) = (c :: rest2).reverse ++ gap := by
                simp
              rw [hl]

/-- **C10.**  parse_inline is total: the result is never empty, the empty
string yields exactly one text element with empty content, and any string on
which no alternative matches anywhere yields exactly one text element
carrying the whole input unchanged. -/
theorem parse_inline_total :
    (∀ s : Chars, parse_inline s ≠ []) ∧
    parse_inline [] = [⟨.text, [], none⟩] ∧
    (∀ s : Chars, noInlineMatch s = true → parse_inline s = [⟨.text, s, none⟩]) := by
  refine ⟨?_, rfl, ?_⟩
  · intro s
    simp only [parse_inline]
    split
    · simp
    · rename_i he
      intro hh
      rw [hh] at he
      simp at he
  · intro s hnm
    rcases s with _ | ⟨c, s2⟩
    · rfl
    · simp only [parse_inline]
      rw [scanGo_noMatch _ _ _ _ _ (by simp) hnm]
      simp

theorem parse_inline_total_witness :
    noInlineMatch (str "hello world") = true ∧
    parse_inline (str "hello world") = [⟨.text, str "hello world", none⟩] :=
  ⟨by decide, parse_inline_total.2.2 (str "hello world") (by decide)⟩

/-! ## Formula fallback (src/handlers.py, MathHandler) — claim C8

`add_inline_equation` and `add_block_equation` wrap `_insert_math` (the two
transpilation stages) in `try ... except (ValueError, etree.XMLSyntaxError)`.
The stages themselves live in external libraries (latex2mathml, lxml), so
they are abstracted as an outcome parameter: either success or an exception
of some Python class.  Exception classes are modelled by a tag naming the
class; the except clause of the source names exactly the two classes below,
every other class falls through Python's exception dispatch and propagates
out of the equation-adding call. -/

inductive PyExc where
  | valueError
  | xmlSyntaxError
  | other (name : String)
  deriving DecidableEq, Repr

inductive EqOutcome where
  | inserted
  | fallbackItalic (latex : Chars)
  | raised (e : PyExc)
  deriving DecidableEq, Repr

/-- Which exception classes the `except (ValueError, etree.XMLSyntaxError)`
clause catches. -/
def caughtByMathHandler : PyExc → Bool
  | .valueError => true
  | .xmlSyntaxError => true
  | .other _ => false

/-- MathHandler.add_inline_equation: on a caught exception the original
LaTeX is added as an italic run, anything else propagates. -/
def add_inline_equation (latex : Chars) (insertResult : Except PyExc Unit) :
    EqOutcome :=
  match insertResult with
  | .ok _ => .inserted
  | .error e => if caughtByMathHandler e then .fallbackItalic latex else .raised e

/-- MathHandler.add_block_equation: identical exception handling around the
same `_insert_math` call (the tab stops and the equation number only shape
the docx output). -/
def add_block_equation (latex : Chars) (insertResult : Except PyExc Unit) :
    EqOutcome :=
  match insertResult with
  | .ok _ => .inserted
  | .error e => if caughtByMathHandler e then .fallbackItalic latex else .raised e

/-- **C8 (counterexample).**  An exception whose class is neither ValueError
nor XMLSyntaxError — e.g. the plain-Exception subclasses latex2mathml raises
on malformed input — is not caught: it propagates out of the equation-adding
operation instead of falling back to an italic run. -/
theorem math_exception_escapes :
    add_inline_equation (str "\\frac\x7b1\x7d")
        (.error (.other "DenominatorNotFoundError")) =
      .raised (.other "DenominatorNotFoundError") ∧
    add_block_equation (str "\\frac\x7b1\x7d")
        (.error (.other "DenominatorNotFoundError")) =
      .raised (.other "DenominatorNotFoundError") :=
  ⟨rfl, rfl⟩

/-- **C8 (amended).**  An exception of class ValueError or XMLSyntaxError in
either transpilation stage makes the formula fall back to a plain italic run
of the original LaTeX and does not propagate; a successful insertion never
falls back; exceptions of any other class propagate. -/
theorem math_exception_fallback :
    (∀ (latex : Chars) (e : PyExc),
      e = PyExc.valueError ∨ e = PyExc.xmlSyntaxError →
        add_inline_equation latex (.error e) = .fallbackItalic latex ∧
        add_block_equation latex (.error e) = .fallbackItalic latex) ∧
    (∀ latex : Chars, add_inline_equation latex (.ok ()) = .inserted ∧
      add_block_equation latex (.ok ()) = .inserted) ∧
    (∀ (latex : Chars) (name : String),
      add_inline_equation latex (.error (.other name)) = .raised (.other name)) := by
  refine ⟨?_, fun latex => ⟨rfl, rfl⟩, fun latex name => rfl⟩
  intro latex e he
  rcases he with he | he <;> subst he <;> exact ⟨rfl, rfl⟩

theorem math_exception_fallback_witness :
    (PyExc.valueError = PyExc.valueError ∨ PyExc.valueError = PyExc.xmlSyntaxError) ∧
    add_inline_equation (str "x^2") (.error PyExc.valueError) =
      .fallbackItalic (str "x^2") ∧
    add_block_equation (str "x^2") (.error PyExc.valueError) =
      .fallbackItalic (str "x^2") :=
  ⟨Or.inl rfl,
   math_exception_fallback.1 (str "x^2") PyExc.valueError (Or.inl rfl)⟩

/-! ## Normalizer (src/utils.py, normalize_markdown) — claim C3

The normalizer unifies line endings, classifies each line against the open
code-fence state, inserts blank lines demanded by the transition tables
`_should_add_blank_line` / `_should_add_blank_after`, and finally collapses
runs of three or more newline characters to two.  The line classifier takes
the unused `in_table` flag exactly as the source does. -/

/-- str.replace('\r\n', '\n'): leftmost, non-overlapping. -/
def replaceCRLF : Chars → Chars
  | [] => []
  | [c] => [c]
  | c :: d :: rest =>
      if c = '\r' && d = '\n' then '\n' :: replaceCRLF rest
      else c :: replaceCRLF (d :: rest)

/-- The two replace calls unifying line endings. -/
def replaceCR (s : Chars) : Chars :=
  (replaceCRLF s).map (fun c => if c = '\r' then '\n' else c)

inductive LType where
  | start | empty | text | heading | code | table | list | quote | hr | math
  deriving DecidableEq, Repr

/-- Regex `^#{1,6}\s+`. -/
def headingLt (line : Chars) : Bool :=
  let k := (line.takeWhile (fun c => c = '#')).length
  decide (1 ≤ k) && decide (k ≤ 6) &&
    (match line.drop k with
     | c :: _ => pyWs c
     | [] => false)

/-- `line.startswith('|') or (line.endswith('|') and '|' in line)`. -/
def tableLt (line : Chars) : Bool :=
  (['|'] : Chars).isPrefixOf line ||
    ((['|'] : Chars).isSuffixOf line && line.contains '|')

/-- Regex `^[-*_]{3,}$` against the stripped line. -/
def hrLt (stripped : Chars) : Bool :=
  decide (stripped.length ≥ 3) &&
    stripped.all (fun c => c = '-' || c = '*' || c = '_')

/-- Regex `^[-*+]\s` (no leading indent). -/
def listLtU (line : Chars) : Bool :=
  match line with
  | m :: c :: _ => (m = '-' || m = '*' || m = '+') && pyWs c
  | _ => false

/-- Regex `^\d+\.\s` (no leading indent). -/
def listLtO (line : Chars) : Bool :=
  let ds := line.takeWhile Char.isDigit
  !ds.isEmpty &&
    (match line.drop ds.length with
     | '.' :: c :: _ => pyWs c
     | _ => false)

/-- _get_line_type (the in_table parameter is accepted and ignored exactly as
in the source). -/
def getLineType (line : Chars) (inCodeBlock : Bool) (_inTable : Bool) : LType :=
  if (pstrip line).isEmpty then .empty
  else if inCodeBlock then .code
  else if (str "```").isPrefixOf line then .code
  else if headingLt line then .heading
  else if tableLt line then .table
  else if hrLt (pstrip line) then .hr
  else if listLtU line then .list
  else if listLtO line then .list
  else if (str "$$").isPrefixOf (pstrip line) then .math
  else if (['>'] : Chars).isPrefixOf line then .quote
  else .text

/-- _should_add_blank_line. -/
def needBlankBefore (prev cur : LType) : Bool :=
  if prev = .start || prev = .empty then false
  else if cur = .empty then false
  else if cur = .heading then !(prev = .heading)
  else if cur = .code && !(prev = .code) then true
  else if cur = .table && !(prev = .table) then true
  else if cur = .list && !(prev = .list) then true
  else if cur = .math && !(prev = .math) then true
  else if cur = .quote && !(prev = .quote) then true
  else if cur = .hr then true
  else false

/-- line.startswith('```'). -/
def fenceL (l : Chars) : Bool := (str "```").isPrefixOf l

/-- The in_code_block toggle performed on each fence line. -/
def toggleF (p : Bool) (l : Chars) : Bool := if fenceL l then !p else p

/-- The code-fence state after scanning a list of lines. -/
def parityAfter (p : Bool) (R : List Chars) : Bool := R.foldl toggleF p

/-- The fence recount of _should_add_blank_after: the in_code state after
toggling once per fence line among lines[0:index]. -/
def fenceParityBefore (lines : List Chars) (index : Nat) : Bool :=
  ((lines.take index).filter fenceL).length % 2 = 1

/-- The line-type part of _should_add_blank_after: add a blank after headings,
after an opening code fence, and after horizontal rules. -/
def nbaCore (l : Chars) (cur : LType) (par : Bool) : Bool :=
  if cur = .heading then true
  else if cur = .code && (str "```").isPrefixOf l && !par then true
  else if cur = .hr then true
  else false

/-- _should_add_blank_after. -/
def needBlankAfter (lines : List Chars) (index : Nat) (cur : LType) : Bool :=
  if index + 1 ≥ lines.length then false
  else if (pstrip (lines.getD (index + 1) [])).isEmpty then false
  else nbaCore (lines.getD index []) cur (fenceParityBefore lines index)

/-- The main insertion pass; one fuel cell per input line, the accumulator
holds the output in reverse. -/
def normGo (lines : List Chars) : List Chars → Nat → Bool → Bool → LType →
    List Chars → List Chars
  | [], _, _, _, _, acc => acc.reverse
  | _ :: fuel, i, inCode, inTable, prev, acc =>
      let line := lines.getD i []
      let cur := getLineType line inCode inTable
      let inCode2 := if (str "```").isPrefixOf line then !inCode else inCode
      let inTable2 :=
        if cur = .table then true
        else if inTable && !(cur = .table) && !(cur = .empty) then false
        else inTable
      let acc1 := if needBlankBefore prev cur && !acc.isEmpty &&
          !(pstrip (acc.headD [])).isEmpty then [] :: acc else acc
      let acc2 := line :: acc1
      let acc3 := if needBlankAfter lines i cur && decide (i + 1 < lines.length) &&
          !(pstrip (lines.getD (i + 1) [])).isEmpty then [] :: acc2 else acc2
      let prev2 := if !(pstrip line).isEmpty then cur else .empty
      normGo lines fuel (i + 1) inCode2 inTable2 prev2 acc3

def normLoop (lines : List Chars) : List Chars :=
  normGo lines lines 0 false false .start []

/-- Replacement text for one maximal newline run (re.sub r'\n{3,}' → two). -/
def collapseEmit (run : Nat) : Chars :=
  List.replicate (if run ≥ 3 then 2 else run) '\n'

def collapseGo (run : Nat) : Chars → Chars
  | [] => collapseEmit run
  | c :: rest =>
      if c = '\n' then collapseGo (run + 1) rest
      else collapseEmit run ++ c :: collapseGo 0 rest

def collapseNl (s : Chars) : Chars := collapseGo 0 s

def normalize_markdown (s : Chars) : Chars :=
  collapseNl (joinNl (normLoop (splitNl (replaceCR s))))

/-! ### Splitting and joining -/

lemma splitNl_cons_nl (rest : Chars) : splitNl ('\n' :: rest) = [] :: splitNl rest := by
  simp [splitNl]

lemma splitNl_cons_ne (c : Char) (rest : Chars) (h : c ≠ '\n') :
    splitNl (c :: rest) = (c :: (splitNl rest).headD []) :: (splitNl rest).tail := by
  simp [splitNl, h]

lemma splitNl_ne_nil (s : Chars) : splitNl s ≠ [] := by
  cases s with
  | nil => simp [splitNl]
  | cons c rest =>
      by_cases h : c = '\n'
      · subst h; rw [splitNl_cons_nl]; simp
      · rw [splitNl_cons_ne c rest h]; simp

lemma joinNl_cons (l : Chars) (rest : List Chars) :
    joinNl (l :: rest) = l ++ (if rest.isEmpty then [] else '\n' :: joinNl rest) := rfl

lemma joinNl_cons_ne (l : Chars) (rest : List Chars) (h : rest ≠ []) :
    joinNl (l :: rest) = l ++ '\n' :: joinNl rest := by
  simp [joinNl_cons, h]

lemma joinNl_cons_head (c : Char) (x : Chars) (t : List Chars) :
    joinNl ((c :: x) :: t) = c :: joinNl (x :: t) := by
  rw [joinNl_cons, joinNl_cons, List.cons_append]

lemma headD_mem {α : Type} (l : List α) (d : α) (h : l ≠ []) : l.headD d ∈ l := by
  cases l with
  | nil => exact absurd rfl h
  | cons x t => simp

lemma splitNl_shape (c : Char) (rest : Chars) (h : c ≠ '\n') :
    splitNl (c :: rest) =
      (c :: (splitNl rest).headD []) :: (splitNl rest).tail ∧
      (splitNl rest).headD [] :: (splitNl rest).tail = splitNl rest := by
  refine ⟨splitNl_cons_ne c rest h, ?_⟩
  cases hr : splitNl rest with
  | nil => exact absurd hr (splitNl_ne_nil rest)
  | cons x t => simp

lemma joinNl_splitNl (s : Chars) : joinNl (splitNl s) = s := by
  induction s with
  | nil => rfl
  | cons c rest ih =>
      by_cases h : c = '\n'
      · subst h
        rw [splitNl_cons_nl, joinNl_cons_ne _ _ (splitNl_ne_nil rest), ih]
        rfl
      · obtain ⟨h1, h2⟩ := splitNl_shape c rest h
        rw [h1, joinNl_cons_head, h2, ih]

lemma splitNl_no_nl (s : Chars) : ∀ l ∈ splitNl s, '\n' ∉ l := by
  induction s with
  | nil => intro l hl; simp [splitNl] at hl; simp [hl]
  | cons c rest ih =>
      intro l hl
      by_cases h : c = '\n'
      · subst h
        rw [splitNl_cons_nl] at hl
        rcases List.mem_cons.1 hl with rfl | hl
        · simp
        · exact ih l hl
      · rw [splitNl_cons_ne c rest h] at hl
        rcases List.mem_cons.1 hl with rfl | hl
        · intro hmem
          rcases List.mem_cons.1 hmem with rfl | hmem
          · exact h rfl
          · exact ih _ (headD_mem _ _ (splitNl_ne_nil rest)) hmem
        · exact ih l (List.mem_of_mem_tail hl)

lemma splitNl_nonl (x : Chars) (h : '\n' ∉ x) : splitNl x = [x] := by
  induction x with
  | nil => rfl
  | cons c rest ih =>
      have hc : c ≠ '\n' := fun hc => h (by simp [hc])
      have hr : '\n' ∉ rest := fun hm => h (List.mem_cons_of_mem _ hm)
      rw [splitNl_cons_ne c rest hc, ih hr]
      rfl

lemma splitNl_append_cons (x y : Chars) (h : '\n' ∉ x) :
    splitNl (x ++ '\n' :: y) = x :: splitNl y := by
  induction x with
  | nil => simpa using splitNl_cons_nl y
  | cons c rest ih =>
      have hc : c ≠ '\n' := fun hc => h (by simp [hc])
      have hr : '\n' ∉ rest := fun hm => h (List.mem_cons_of_mem _ hm)
      rw [List.cons_append, splitNl_cons_ne c _ hc, ih hr]
      rfl

lemma splitNl_joinNl (L : List Chars) (hne : L ≠ [])
    (h : ∀ l ∈ L, '\n' ∉ l) : splitNl (joinNl L) = L := by
  induction L with
  | nil => exact absurd rfl hne
  | cons l rest ih =>
      cases rest with
      | nil => simpa [joinNl] using splitNl_nonl l (h l (by simp))
      | cons m t =>
          rw [joinNl_cons_ne _ _ (by simp),
            splitNl_append_cons _ _ (h l (by simp)),
            ih (by simp) (fun u hu => h u (List.mem_cons_of_mem _ hu))]

lemma splitNl_mem_chars (s : Chars) :
    ∀ l ∈ splitNl s, ∀ c ∈ l, c ∈ s := by
  induction s with
  | nil => intro l hl c hc; simp [splitNl] at hl; subst hl; simp at hc
  | cons a rest ih =>
      intro l hl c hc
      by_cases h : a = '\n'
      · subst h
        rw [splitNl_cons_nl] at hl
        rcases List.mem_cons.1 hl with rfl | hl
        · simp at hc
        · exact List.mem_cons_of_mem _ (ih l hl c hc)
      · rw [splitNl_cons_ne a rest h] at hl
        rcases List.mem_cons.1 hl with rfl | hl
        · rcases List.mem_cons.1 hc with rfl | hc2
          · simp
          · exact List.mem_cons_of_mem _
              (ih _ (headD_mem _ _ (splitNl_ne_nil rest)) c hc2)
        · exact List.mem_cons_of_mem _ (ih l (List.mem_of_mem_tail hl) c hc)

lemma mem_joinNl (L : List Chars) (c : Char) (h : c ∈ joinNl L) :
    c = '\n' ∨ ∃ l ∈ L, c ∈ l := by
  induction L with
  | nil => simp [joinNl] at h
  | cons l rest ih =>
      cases rest with
      | nil =>
          simp only [joinNl_cons, List.isEmpty_nil, if_true, List.append_nil] at h
          exact Or.inr ⟨l, by simp, h⟩
      | cons m t =>
          rw [joinNl_cons_ne _ _ (by simp)] at h
          rcases List.mem_append.1 h with h1 | h2
          · exact Or.inr ⟨l, by simp, h1⟩
          · rcases List.mem_cons.1 h2 with rfl | h3
            · exact Or.inl rfl
            · rcases ih h3 with h4 | ⟨u, hu, hcu⟩
              · exact Or.inl h4
              · exact Or.inr ⟨u, List.mem_cons_of_mem _ hu, hcu⟩

/-! ### The newline collapse -/

lemma collapseGo_nl (r : Nat) (rest : Chars) :
    collapseGo r ('\n' :: rest) = collapseGo (r + 1) rest := by
  simp [collapseGo]

lemma collapseGo_ne (r : Nat) (c : Char) (rest : Chars) (h : c ≠ '\n') :
    collapseGo r (c :: rest) = collapseEmit r ++ c :: collapseGo 0 rest := by
  simp [collapseGo, h]

lemma collapseGo_runs (k : Nat) : ∀ r y,
    collapseGo r (List.replicate k '\n' ++ y) = collapseGo (r + k) y := by
  induction k with
  | zero => intro r y; simp
  | succ n ih =>
      intro r y
      rw [List.replicate_succ, List.cons_append, collapseGo_nl, ih]
      congr 1
      omega

/-- No three consecutive newline characters anywhere. -/
def noTri : Chars → Bool
  | [] => true
  | c :: rest => !(c = '\n' && (str "\n\n").isPrefixOf rest) && noTri rest

lemma noTri_cons {c : Char} {x : Chars} (h : noTri (c :: x) = true) : noTri x = true := by
  simp only [noTri, Bool.and_eq_true] at h
  exact h.2

lemma noTri_cons_ne (c : Char) (x : Chars) (h : c ≠ '\n') :
    noTri (c :: x) = noTri x := by
  simp [noTri, h]

lemma noTri_append_elim {a x : Chars} (h : noTri (a ++ x) = true) : noTri x = true := by
  induction a with
  | nil => exact h
  | cons c t ih => exact ih (noTri_cons h)

lemma collapseEmit_le (r : Nat) :
    collapseEmit r = List.replicate (if r ≥ 3 then 2 else r) '\n' := rfl

lemma noTri_nl_cons_ne (c : Char) (x : Chars) (h : c ≠ '\n') :
    noTri ('\n' :: c :: x) = noTri (c :: x) := by
  have h' : ('\n' == c) = false := by simp [Ne.symm h]
  simp [noTri, str, List.isPrefixOf, h']

lemma noTri_nl_nl_cons_ne (c : Char) (x : Chars) (h : c ≠ '\n') :
    noTri ('\n' :: '\n' :: c :: x) = noTri ('\n' :: c :: x) := by
  have h' : ('\n' == c) = false := by simp [Ne.symm h]
  simp [noTri, str, List.isPrefixOf, h']

lemma noTri_emit_append (r : Nat) (c : Char) (x : Chars) (hc : c ≠ '\n')
    (h : noTri (c :: x) = true) : noTri (collapseEmit r ++ c :: x) = true := by
  have key : ∀ k : Nat, k ≤ 2 → noTri (List.replicate k '\n' ++ c :: x) = true := by
    intro k hk
    interval_cases k
    · exact h
    · rw [List.replicate_one, List.singleton_append, noTri_nl_cons_ne c x hc]
      exact h
    · rw [show List.replicate 2 '\n' = ['\n', '\n'] from rfl,
        show (['\n', '\n'] : Chars) ++ c :: x = '\n' :: '\n' :: c :: x from rfl,
        noTri_nl_nl_cons_ne c x hc, noTri_nl_cons_ne c x hc]
      exact h
  rw [collapseEmit_le]
  rcases Nat.lt_or_ge r 3 with h3 | h3
  · rw [if_neg (by omega)]; exact key r (by omega)
  · rw [if_pos h3]; exact key 2 (by omega)

lemma noTri_emit (r : Nat) : noTri (collapseEmit r) = true := by
  rw [collapseEmit_le]
  rcases Nat.lt_or_ge r 3 with h3 | h3
  · rw [if_neg (by omega)]
    interval_cases r <;> decide
  · rw [if_pos h3]; decide

lemma noTri_collapseGo (s : Chars) : ∀ r, noTri (collapseGo r s) = true := by
  induction s with
  | nil => intro r; rw [show collapseGo r [] = collapseEmit r from rfl]; exact noTri_emit r
  | cons c rest ih =>
      intro r
      by_cases h : c = '\n'
      · subst h; rw [collapseGo_nl]; exact ih (r + 1)
      · rw [collapseGo_ne r c rest h]
        exact noTri_emit_append r c _ h (by rw [noTri_cons_ne c _ h]; exact ih 0)

lemma replicate_cons_eq_succ (r : Nat) (a : α) (rest : List α) :
    List.replicate r a ++ a :: rest = List.replicate (r + 1) a ++ rest := by
  rw [List.replicate_succ', List.append_assoc, List.singleton_append]

lemma collapseGo_fix (s : Chars) : ∀ r, r ≤ 2 →
    noTri (List.replicate r '\n' ++ s) = true →
    collapseGo r s = List.replicate r '\n' ++ s := by
  induction s with
  | nil =>
      intro r hr _
      rw [show collapseGo r [] = collapseEmit r from rfl, collapseEmit_le,
        if_neg (by omega), List.append_nil]
  | cons c rest ih =>
      intro r hr hnt
      by_cases h : c = '\n'
      · subst h
        have hr1 : r ≤ 1 := by
          by_contra hgt
          have hr2 : r = 2 := by omega
          subst hr2
          rw [show List.replicate 2 '\n' = ['\n', '\n'] from rfl] at hnt
          simp [noTri, str, List.isPrefixOf] at hnt
        rw [collapseGo_nl]
        rw [replicate_cons_eq_succ r '\n' rest] at hnt ⊢
        exact ih (r + 1) (by omega) hnt
      · have hrest : noTri (c :: rest) = true := noTri_append_elim hnt
        rw [collapseGo_ne r c rest h, collapseEmit_le, if_neg (by omega),
          ih 0 (by omega) (by simpa using noTri_cons hrest)]
        simp

lemma collapse_idem (s : Chars) : collapseNl (collapseNl s) = collapseNl s := by
  have h := collapseGo_fix (collapseNl s) 0 (by omega)
    (by simpa using noTri_collapseGo s 0)
  simpa [collapseNl] using h

/-! ### Carriage returns never survive, and line shapes -/

lemma replaceCRLF_fix : ∀ n s, List.length s ≤ n → '\r' ∉ s → replaceCRLF s = s := by
  intro n
  induction n with
  | zero =>
      intro s hlen _
      rcases s with _ | ⟨c, rest⟩
      · rfl
      · simp at hlen
  | succ n ih =>
      intro s hlen hcr
      rcases s with _ | ⟨c, rest⟩
      · rfl
      · rcases rest with _ | ⟨d, rest2⟩
        · rfl
        · have hc : c ≠ '\r' := fun h => hcr (by simp [h])
          rw [show replaceCRLF (c :: d :: rest2) =
              (if c = '\r' && d = '\n' then '\n' :: replaceCRLF rest2
               else c :: replaceCRLF (d :: rest2)) from rfl,
            if_neg (by simp [hc])]
          rw [ih (d :: rest2) (by simpa using Nat.le_of_succ_le_succ hlen)
            (fun h => hcr (List.mem_cons_of_mem _ h))]

lemma replaceCR_no_cr (s : Chars) : '\r' ∉ replaceCR s := by
  intro h
  rcases List.mem_map.1 h with ⟨b, _, hb⟩
  by_cases hbr : b = '\r' <;> simp [hbr] at hb

lemma replaceCR_fix (s : Chars) (h : '\r' ∉ s) : replaceCR s = s := by
  rw [replaceCR, replaceCRLF_fix s.length s le_rfl h]
  have hmap : s.map (fun c => if c = '\r' then '\n' else c) = s.map id :=
    List.map_congr_left (fun c hc => by
      have hne : c ≠ '\r' := fun hrr => h (hrr ▸ hc)
      simp [hne])
  simpa using hmap

lemma getD_mem_or {α : Type} (l : List α) (i : Nat) (d : α) :
    l.getD i d ∈ l ∨ l.getD i d = d := by
  induction l generalizing i with
  | nil => exact Or.inr (by simp)
  | cons x t ih =>
      cases i with
      | zero => exact Or.inl (by simp)
      | succ j =>
          rcases ih j with h | h
          · exact Or.inl (List.mem_cons_of_mem _ (by simpa using h))
          · exact Or.inr (by simpa using h)

/-- One step of normGo: it pushes the current line, possibly surrounded by
inserted blanks, onto the accumulator and recurses at i+1. -/
lemma normGo_step (L : List Chars) (f : Chars) (fuel : List Chars) (i : Nat)
    (a b : Bool) (p : LType) (acc : List Chars) :
    ∃ a2 b2 p2 mid, normGo L (f :: fuel) i a b p acc =
        normGo L fuel (i + 1) a2 b2 p2 (mid ++ acc) ∧
      (∀ l ∈ mid, l = L.getD i [] ∨ l = []) ∧ 1 ≤ mid.length := by
  refine ⟨if (str "```").isPrefixOf (L.getD i []) then !a else a,
    if getLineType (L.getD i []) a b = .table then true
      else if b && !(getLineType (L.getD i []) a b = .table) &&
          !(getLineType (L.getD i []) a b = .empty) then false else b,
    if !(pstrip (L.getD i [])).isEmpty then getLineType (L.getD i []) a b else .empty,
    (if needBlankAfter L i (getLineType (L.getD i []) a b) &&
        decide (i + 1 < L.length) && !(pstrip (L.getD (i + 1) [])).isEmpty
      then [([] : Chars)] else []) ++ [L.getD i []] ++
      (if needBlankBefore p (getLineType (L.getD i []) a b) && !acc.isEmpty &&
          !(pstrip (acc.headD [])).isEmpty then [([] : Chars)] else []),
    ?_, ?_, ?_⟩
  · simp only [normGo]
    congr 1
    split <;> split <;> simp_all
  · intro l hl
    split at hl <;> split at hl <;> simp only [List.getD_eq_getElem?_getD] <;>
      simp at hl <;> tauto
  · split <;> split <;> simp

lemma normGo_lines (L : List Chars) : ∀ fuel i a b p acc,
    ∀ l ∈ normGo L fuel i a b p acc, l ∈ L ∨ l = [] ∨ l ∈ acc := by
  intro fuel
  induction fuel with
  | nil =>
      intro i a b p acc l hl
      exact Or.inr (Or.inr (by simpa [normGo] using hl))
  | cons f fuel ih =>
      intro i a b p acc l hl
      obtain ⟨a2, b2, p2, mid, heq, hmid, hmlen⟩ := normGo_step L f fuel i a b p acc
      rw [heq] at hl
      rcases ih _ _ _ _ _ l hl with h | h | h
      · exact Or.inl h
      · exact Or.inr (Or.inl h)
      · rcases List.mem_append.1 h with h | h
        · rcases hmid l h with rfl | rfl
          · rcases getD_mem_or L i [] with hm | hm
            · exact Or.inl hm
            · exact Or.inr (Or.inl hm)
          · exact Or.inr (Or.inl rfl)
        · exact Or.inr (Or.inr h)

/-! ### Pair conditions: a positional "no blank will be inserted" predicate -/

/-- Line type at a position, with the fence parity of the preceding lines. -/
def typAt (C : List Chars) (i : Nat) : LType :=
  getLineType (C.getD i []) (fenceParityBefore C i) false

/-- The prev_type value the insertion loop carries when it reaches position i. -/
def prevAt (C : List Chars) (i : Nat) : LType :=
  if i = 0 then .start
  else if (pstrip (C.getD (i - 1) [])).isEmpty then .empty
  else typAt C (i - 1)

/-- Every adjacent pair of the list satisfies both insertion conditions
negatively. -/
def PartStable (C : List Chars) : Prop :=
  ∀ j, j + 1 < C.length →
    needBlankBefore (prevAt C (j + 1)) (typAt C (j + 1)) = false ∧
    needBlankAfter C j (typAt C j) = false

/-- No position of the list triggers an insertion. -/
def Stable (C : List Chars) : Prop :=
  ∀ i < C.length,
    needBlankBefore (prevAt C i) (typAt C i) = false ∧
    needBlankAfter C i (typAt C i) = false

/-- Pairwise condition carried with a running fence parity: the pair is
harmless if either side is blank, otherwise neither insertion rule fires. -/
def pairOK (u v : Chars) (par : Bool) : Bool :=
  (pstrip u).isEmpty || (pstrip v).isEmpty ||
    (!(needBlankBefore (getLineType u par false) (getLineType v (toggleF par u) false)) &&
     !(nbaCore u (getLineType u par false) par))

/-- All adjacent pairs hold, threading the fence parity left to right. -/
def chainOK (par : Bool) : List Chars → Prop
  | x :: y :: rest => pairOK x y par = true ∧ chainOK (toggleF par x) (y :: rest)
  | _ => True

lemma getLineType_blank (l : Chars) (a b : Bool) (h : (pstrip l).isEmpty = true) :
    getLineType l a b = .empty := by
  simp [getLineType, h]

lemma getLineType_table_irrel (l : Chars) (a b b' : Bool) :
    getLineType l a b = getLineType l a b' := rfl

lemma nbb_start (t : LType) : needBlankBefore .start t = false := by
  simp [needBlankBefore]

lemma nbb_prev_empty (t : LType) : needBlankBefore .empty t = false := by
  simp [needBlankBefore]

lemma nbb_cur_empty (p : LType) : needBlankBefore p .empty = false := by
  cases p <;> rfl

lemma nbaCore_empty (l : Chars) (par : Bool) : nbaCore l .empty par = false := rfl

lemma nba_oob (C : List Chars) (j : Nat) (t : LType) (h : C.length ≤ j + 1) :
    needBlankAfter C j t = false := by
  simp only [needBlankAfter]
  rw [if_pos (by omega)]

lemma nba_next_blank (C : List Chars) (j : Nat) (t : LType)
    (h : (pstrip (C.getD (j + 1) [])).isEmpty = true) :
    needBlankAfter C j t = false := by
  simp only [needBlankAfter]
  by_cases h1 : j + 1 ≥ C.length
  · rw [if_pos h1]
  · rw [if_neg h1, if_pos h]

lemma nba_cur_empty (C : List Chars) (j : Nat) : needBlankAfter C j .empty = false := by
  simp only [needBlankAfter]
  by_cases h1 : j + 1 ≥ C.length
  · rw [if_pos h1]
  · rw [if_neg h1]
    by_cases h2 : (pstrip (C.getD (j + 1) [])).isEmpty
    · rw [if_pos h2]
    · rw [if_neg h2, nbaCore_empty]

lemma nba_of_core (C : List Chars) (j : Nat) (t : LType)
    (h : nbaCore (C.getD j []) t (fenceParityBefore C j) = false) :
    needBlankAfter C j t = false := by
  simp only [needBlankAfter]
  by_cases h1 : j + 1 ≥ C.length
  · rw [if_pos h1]
  · rw [if_neg h1]
    by_cases h2 : (pstrip (C.getD (j + 1) [])).isEmpty
    · rw [if_pos h2]
    · rw [if_neg h2, h]

lemma core_of_nba (C : List Chars) (j : Nat) (t : LType)
    (h : needBlankAfter C j t = false) (hb : j + 1 < C.length)
    (hn : (pstrip (C.getD (j + 1) [])).isEmpty = false) :
    nbaCore (C.getD j []) t (fenceParityBefore C j) = false := by
  simp only [needBlankAfter] at h
  rw [if_neg (by omega), if_neg (by rw [hn]; simp)] at h
  exact h

lemma toggleF_blank (p : Bool) : toggleF p [] = p := rfl

lemma parityAfter_append (p : Bool) (X Y : List Chars) :
    parityAfter p (X ++ Y) = parityAfter (parityAfter p X) Y := by
  simp [parityAfter, List.foldl_append]

lemma parityAfter_decide (X : List Chars) : ∀ p,
    parityAfter p X = (if ((X.filter fenceL).length % 2 = 1) then !p else p) := by
  induction X with
  | nil => intro p; simp [parityAfter]
  | cons x X ih =>
      intro p
      have hstep : parityAfter p (x :: X) = parityAfter (toggleF p x) X := rfl
      rw [hstep, ih]
      by_cases hf : fenceL x = true
      · have hfil : (List.filter fenceL (x :: X)).length = (List.filter fenceL X).length + 1 := by
          simp [List.filter_cons, hf]
        rw [hfil]
        by_cases hc : (List.filter fenceL X).length % 2 = 1
        · rw [if_pos hc, if_neg (by omega)]
          simp [toggleF, hf]
        · rw [if_neg hc, if_pos (by omega)]
          simp [toggleF, hf]
      · have hfil : (List.filter fenceL (x :: X)).length = (List.filter fenceL X).length := by
          simp [List.filter_cons, hf]
        rw [hfil]
        by_cases hc : (List.filter fenceL X).length % 2 = 1 <;>
          simp [hc, toggleF, hf]

lemma parity_take (C : List Chars) (k : Nat) :
    parityAfter false (C.take k) = fenceParityBefore C k := by
  rw [parityAfter_decide]
  by_cases h : ((C.take k).filter fenceL).length % 2 = 1 <;>
    simp [fenceParityBefore, h]

lemma parity_succ (C : List Chars) (i : Nat) :
    fenceParityBefore C (i + 1) = toggleF (fenceParityBefore C i) (C.getD i []) := by
  by_cases hi : i < C.length
  · have ht : C.take (i + 1) = C.take i ++ [C.getD i []] := by
      rw [List.take_succ, List.getElem?_eq_getElem hi,
        List.getD_eq_getElem C [] hi]
      rfl
    rw [← parity_take, ← parity_take, ht, parityAfter_append]
    rfl
  · have h1 : C.take (i + 1) = C := List.take_of_length_le (by omega)
    have h2 : C.take i = C := List.take_of_length_le (by omega)
    have h3 : C.getD i [] = [] := List.getD_eq_default _ _ (by omega)
    rw [← parity_take, ← parity_take, h1, h2, h3, toggleF_blank]

lemma parityBefore_append (R X : List Chars) (j : Nat) (h : j ≤ R.length) :
    fenceParityBefore (R ++ X) j = fenceParityBefore R j := by
  unfold fenceParityBefore
  rw [List.take_append_of_le_length h]

lemma typAt_append (R X : List Chars) (j : Nat) (h : j < R.length) :
    typAt (R ++ X) j = typAt R j := by
  unfold typAt
  rw [List.getD_append R X [] j h, parityBefore_append R X j (by omega)]

lemma prevAt_append (R X : List Chars) (j : Nat) (h : j ≤ R.length) (hj : 1 ≤ j) :
    prevAt (R ++ X) j = prevAt R j := by
  unfold prevAt
  rw [List.getD_append R X [] (j - 1) (by omega), typAt_append R X (j - 1) (by omega)]

lemma nba_append (R X : List Chars) (j : Nat) (t : LType) (h : j + 1 < R.length) :
    needBlankAfter (R ++ X) j t = needBlankAfter R j t := by
  simp only [needBlankAfter, List.getD_append R X [] j (by omega),
    List.getD_append R X [] (j + 1) h,
    parityBefore_append R X j (by omega), List.length_append]
  rw [if_neg (show ¬(j + 1 ≥ R.length + X.length) by omega),
    if_neg (show ¬(j + 1 ≥ R.length) by omega)]

lemma partStable_snoc (R : List Chars) (v : Chars) (hR : PartStable R)
    (hb : R ≠ [] →
      needBlankBefore (prevAt (R ++ [v]) R.length) (typAt (R ++ [v]) R.length) = false ∧
      needBlankAfter (R ++ [v]) (R.length - 1) (typAt (R ++ [v]) (R.length - 1)) = false) :
    PartStable (R ++ [v]) := by
  intro j hj
  rcases Nat.lt_or_ge (j + 1) R.length with hlt | hge
  · obtain ⟨h1, h2⟩ := hR j hlt
    refine ⟨?_, ?_⟩
    · rw [prevAt_append R [v] (j + 1) (by omega) (by omega),
        typAt_append R [v] (j + 1) hlt]
      exact h1
    · rw [nba_append R [v] j _ hlt, typAt_append R [v] j (by omega)]
      exact h2
  · have hj1 : j + 1 = R.length := by
      simp only [List.length_append, List.length_singleton] at hj
      omega
    have hRne : R ≠ [] := by
      intro hnil
      rw [hnil] at hj1
      simp at hj1
    obtain ⟨h1, h2⟩ := hb hRne
    refine ⟨?_, ?_⟩
    · rw [hj1]; exact h1
    · rw [show j = R.length - 1 by omega]; exact h2

lemma chainOK_short (par : Bool) (l : List Chars) (h : l.length ≤ 1) :
    chainOK par l := by
  match l with
  | [] => trivial
  | [x] => trivial
  | x :: y :: r => simp at h

lemma pairOK_elim {u v : Chars} {par : Bool} (hp : pairOK u v par = true)
    (hu : (pstrip u).isEmpty = false) (hv : (pstrip v).isEmpty = false) :
    needBlankBefore (getLineType u par false) (getLineType v (toggleF par u) false) = false ∧
    nbaCore u (getLineType u par false) par = false := by
  unfold pairOK at hp
  rw [hu, hv] at hp
  simp only [Bool.false_or, Bool.and_eq_true, Bool.not_eq_true'] at hp
  exact hp

lemma drop_getD_cons (C : List Chars) (k : Nat) (h : k < C.length) :
    C.drop k = C.getD k [] :: C.drop (k + 1) := by
  rw [List.drop_eq_getElem_cons h, List.getD_eq_getElem C [] h]

lemma chain_drop (C : List Chars) (hS : Stable C) :
    ∀ n k, C.length - k ≤ n → chainOK (fenceParityBefore C k) (C.drop k) := by
  intro n
  induction n with
  | zero =>
      intro k hk
      exact chainOK_short _ _ (by simp; omega)
  | succ n ih =>
      intro k hk
      by_cases hk1 : k + 1 < C.length
      · rw [drop_getD_cons C k (by omega), drop_getD_cons C (k + 1) hk1]
        refine ⟨?_, ?_⟩
        · by_cases hu : (pstrip (C.getD k [])).isEmpty
          · unfold pairOK
            rw [hu]
            simp
          · by_cases hv : (pstrip (C.getD (k + 1) [])).isEmpty
            · unfold pairOK
              rw [hv]
              simp
            · have h1 := (hS (k + 1) hk1).1
              have h2 := (hS k (by omega)).2
              have hprev : prevAt C (k + 1) = typAt C k := by
                unfold prevAt
                rw [if_neg (by omega)]
                simp only [Nat.add_sub_cancel]
                rw [if_neg hu]
              rw [hprev] at h1
              unfold typAt at h1
              rw [parity_succ] at h1
              have hcore := core_of_nba C k (typAt C k) h2 hk1 (by simpa using hv)
              unfold typAt at hcore
              unfold pairOK
              rw [h1, hcore]
              simp
        · rw [← drop_getD_cons C (k + 1) hk1, ← parity_succ]
          exact ih (k + 1) (by omega)
      · exact chainOK_short _ _ (by simp; omega)

lemma chain_of_stable (C : List Chars) (hS : Stable C) : chainOK false C := by
  have h := chain_drop C hS C.length 0 (by omega)
  rw [show fenceParityBefore C 0 = false from rfl, List.drop_zero] at h
  exact h

lemma chain_at (C : List Chars) (h : chainOK false C) :
    ∀ k, chainOK (fenceParityBefore C k) (C.drop k) := by
  intro k
  induction k with
  | zero =>
      rw [show fenceParityBefore C 0 = false from rfl, List.drop_zero]
      exact h
  | succ k ih =>
      by_cases hk1 : k + 1 < C.length
      · rw [drop_getD_cons C k (by omega)] at ih
        rcases hdrop : C.drop (k + 1) with _ | ⟨y, r⟩
        · trivial
        · rw [hdrop] at ih
          rw [parity_succ]
          exact ih.2
      · rw [List.drop_eq_nil_of_le (by omega)]
        trivial

lemma stable_of_chain (C : List Chars) (h : chainOK false C) : Stable C := by
  intro i hi
  refine ⟨?_, ?_⟩
  · rcases Nat.eq_zero_or_pos i with rfl | hpos
    · rw [show prevAt C 0 = .start from rfl]
      exact nbb_start _
    · obtain ⟨k, rfl⟩ : ∃ k, i = k + 1 := ⟨i - 1, by omega⟩
      by_cases hp : (pstrip (C.getD k [])).isEmpty
      · rw [show prevAt C (k + 1) = .empty from by
          unfold prevAt
          rw [if_neg (by omega)]
          simp only [Nat.add_sub_cancel]
          rw [if_pos hp]]
        exact nbb_prev_empty _
      · by_cases hc : (pstrip (C.getD (k + 1) [])).isEmpty
        · rw [show typAt C (k + 1) = .empty from by
            unfold typAt; exact getLineType_blank _ _ _ hc]
          exact nbb_cur_empty _
        · have hch := chain_at C h k
          rw [drop_getD_cons C k (by omega), drop_getD_cons C (k + 1) hi] at hch
          have hprev : prevAt C (k + 1) = typAt C k := by
            unfold prevAt
            rw [if_neg (by omega)]
            simp only [Nat.add_sub_cancel]
            rw [if_neg hp]
          rw [hprev]
          unfold typAt
          rw [parity_succ]
          exact (pairOK_elim hch.1
            (by simpa using hp) (by simpa using hc)).1
  · by_cases hb : i + 1 ≥ C.length
    · exact nba_oob _ _ _ (by omega)
    · by_cases hn : (pstrip (C.getD (i + 1) [])).isEmpty
      · exact nba_next_blank _ _ _ hn
      · by_cases hc : (pstrip (C.getD i [])).isEmpty
        · rw [show typAt C i = .empty from by
            unfold typAt; exact getLineType_blank _ _ _ hc]
          exact nba_cur_empty _ _
        · have hch := chain_at C h i
          rw [drop_getD_cons C i (by omega), drop_getD_cons C (i + 1) (by omega)] at hch
          refine nba_of_core _ _ _ ?_
          have := (pairOK_elim hch.1 (by simpa using hc) (by simpa using hn)).2
          unfold typAt
          exact this

/-! ### Thinning: the newline collapse deletes blank lines from runs, never a
whole run -/

/-- c is obtained from o by deleting leading-empty lines, each deletion
leaving at least one blank line behind at the deletion point. -/
inductive Thins : List Chars → List Chars → Prop where
  | nil : Thins [] []
  | keep (x : Chars) {o c : List Chars} : Thins o c → Thins (x :: o) (x :: c)
  | drop {o c : List Chars} : Thins o c → c.headD [] = [] → c ≠ [] →
      Thins ([] :: o) c

lemma thins_nil_inv {c : List Chars} (h : Thins [] c) : c = [] := by
  cases h
  rfl

lemma thins_head {o c : List Chars} (h : Thins o c) (hc : c ≠ []) :
    c.headD [] = [] ∨ c.headD [] = o.headD [] := by
  cases h with
  | nil => exact absurd rfl hc
  | keep x h2 => exact Or.inr (by simp)
  | drop h2 hh hne => exact Or.inl hh

lemma chainOK_tail {par : Bool} {x : Chars} {o : List Chars}
    (h : chainOK par (x :: o)) : chainOK (toggleF par x) o := by
  match o with
  | [] => trivial
  | y :: rest => exact h.2

lemma chainOK_cons {par : Bool} {x : Chars} {o : List Chars}
    (h : chainOK (toggleF par x) o)
    (hp : ∀ y r, o = y :: r → pairOK x y par = true) : chainOK par (x :: o) := by
  match o with
  | [] => trivial
  | y :: r => exact ⟨hp y r rfl, h⟩

lemma pairOK_blank_right (u v : Chars) (par : Bool)
    (h : (pstrip v).isEmpty = true) : pairOK u v par = true := by
  unfold pairOK
  rw [h]
  simp

lemma thins_chainOK {o c : List Chars} (h : Thins o c) :
    ∀ par, chainOK par o → chainOK par c := by
  induction h with
  | nil => intro par _; trivial
  | @keep x o c h2 ih =>
      intro par hch
      refine chainOK_cons (ih (toggleF par x) (chainOK_tail hch)) ?_
      intro y r hcr
      have hcne : c ≠ [] := by rw [hcr]; simp
      rcases thins_head h2 hcne with hblank | hhead
      · rw [hcr] at hblank
        simp only [List.headD_cons] at hblank
        subst hblank
        exact pairOK_blank_right _ _ _ rfl
      · have hone : o ≠ [] := by
          intro ho
          subst ho
          exact hcne (thins_nil_inv h2)
        rcases ho : o with _ | ⟨z, o2⟩
        · exact absurd ho hone
        · rw [ho] at hch
          have hyz : y = z := by
            rw [hcr] at hhead
            rw [ho] at hhead
            simpa using hhead
          rw [hyz]
          exact hch.1
  | drop h2 hh hne ih =>
      intro par hch
      apply ih par
      have ht := chainOK_tail hch
      rwa [toggleF_blank] at ht

lemma thins_refl (l : List Chars) : Thins l l := by
  induction l with
  | nil => exact Thins.nil
  | cons x t ih => exact Thins.keep x ih

lemma thins_keep_front {o c : List Chars} (h : Thins o c) :
    ∀ k, Thins (List.replicate k [] ++ o) (List.replicate k [] ++ c) := by
  intro k
  induction k with
  | zero => simpa using h
  | succ k ih =>
      rw [List.replicate_succ, List.cons_append, List.cons_append]
      exact Thins.keep [] ih

lemma thins_drop_front {o c : List Chars} (h : Thins o c)
    (hh : c.headD [] = []) (hne : c ≠ []) :
    ∀ d, Thins (List.replicate d [] ++ o) c := by
  intro d
  induction d with
  | zero => simpa using h
  | succ d ih =>
      rw [List.replicate_succ, List.cons_append]
      exact Thins.drop ih hh hne

lemma thins_run {o c : List Chars} (h : Thins o c) (m m' : Nat)
    (hle : m' ≤ m) (hz : m' = 0 → m = 0) :
    Thins (List.replicate m [] ++ o) (List.replicate m' [] ++ c) := by
  rcases Nat.eq_zero_or_pos m' with rfl | hpos
  · have hm : m = 0 := hz rfl
    subst hm
    simpa using h
  · rw [show m = (m - m') + m' from by omega, List.replicate_add, List.append_assoc]
    refine thins_drop_front (thins_keep_front h m') ?_ ?_ (m - m')
    · obtain ⟨k, rfl⟩ : ∃ k, m' = k + 1 := ⟨m' - 1, by omega⟩
      rw [List.replicate_succ, List.cons_append]
      rfl
    · obtain ⟨k, rfl⟩ : ∃ k, m' = k + 1 := ⟨m' - 1, by omega⟩
      rw [List.replicate_succ, List.cons_append]
      simp

lemma joinNl_repl (k : Nat) :
    joinNl (List.replicate (k + 1) ([] : Chars)) = List.replicate k '\n' := by
  induction k with
  | zero => rfl
  | succ k ih =>
      rw [List.replicate_succ, joinNl_cons_ne _ _ (by simp), ih, List.replicate_succ]
      rfl

lemma joinNl_repl_front (m : Nat) (rest : List Chars) (h : rest ≠ []) :
    joinNl (List.replicate m [] ++ rest) =
      List.replicate m '\n' ++ joinNl rest := by
  induction m with
  | zero => simp
  | succ m ih =>
      rw [List.replicate_succ, List.cons_append,
        joinNl_cons_ne _ _ (by simp [h]), ih, List.replicate_succ]
      rfl

lemma splitNl_nl_run (k : Nat) (y : Chars) :
    splitNl (List.replicate k '\n' ++ y) =
      List.replicate k ([] : Chars) ++ splitNl y := by
  induction k with
  | zero => simp
  | succ k ih =>
      rw [List.replicate_succ, List.cons_append, splitNl_cons_nl, ih,
        List.replicate_succ, List.cons_append]

lemma collapseGo_zero_nil : collapseGo 0 [] = [] := rfl

lemma collapseGo_append_nonl (x : Chars) (hx : '\n' ∉ x) (y : Chars) :
    collapseGo 0 (x ++ y) = x ++ collapseGo 0 y := by
  induction x with
  | nil => simp
  | cons c x ih =>
      have hc : c ≠ '\n' := fun h => hx (by simp [h])
      have hx2 : '\n' ∉ x := fun h => hx (List.mem_cons_of_mem _ h)
      rw [List.cons_append, collapseGo_ne 0 c _ hc, ih hx2]
      rfl

lemma collapseGo_zero_nonl (x : Chars) (hx : '\n' ∉ x) : collapseGo 0 x = x := by
  have h := collapseGo_append_nonl x hx []
  rw [List.append_nil, collapseGo_zero_nil, List.append_nil] at h
  exact h

lemma run_decomp (O : List Chars) :
    ∃ m rest, O = List.replicate m [] ++ rest ∧ (rest = [] ∨ rest.headD [] ≠ []) := by
  induction O with
  | nil => exact ⟨0, [], rfl, Or.inl rfl⟩
  | cons x O ih =>
      by_cases hx : x = ([] : Chars)
      · obtain ⟨m, rest, heq, hr⟩ := ih
        subst hx
        exact ⟨m + 1, rest, by rw [List.replicate_succ, List.cons_append, heq], hr⟩
      · exact ⟨0, x :: O, rfl, Or.inr (by simpa using hx)⟩

/-- The number of newlines re.sub emits for a run of `r`. -/
def emCount (r : Nat) : Nat := if r ≥ 3 then 2 else r

lemma collapseEmit_eq (r : Nat) : collapseEmit r = List.replicate (emCount r) '\n' := rfl

lemma emCount_le (r : Nat) : emCount r ≤ r := by
  unfold emCount; split <;> omega

lemma emCount_pos (r : Nat) (h : 1 ≤ r) : 1 ≤ emCount r := by
  unfold emCount; split <;> omega

lemma emCount_zero (r : Nat) (h : emCount r = 0) : r = 0 := by
  unfold emCount at h; split at h <;> omega

lemma collapseEmit_pos (r : Nat) (hr : 1 ≤ r) :
    collapseEmit r = '\n' :: List.replicate (emCount r - 1) '\n' := by
  have he : 1 ≤ emCount r := emCount_pos r hr
  rw [collapseEmit_eq]
  obtain ⟨e, hee⟩ : ∃ e, emCount r = e + 1 := ⟨emCount r - 1, by omega⟩
  rw [hee, List.replicate_succ]
  simp

lemma thins_tail : ∀ n (rest : List Chars), rest.length ≤ n → rest ≠ [] →
    (∀ l ∈ rest, '\n' ∉ l) →
    ∃ w, collapseGo 1 (joinNl rest) = '\n' :: w ∧ Thins rest (splitNl w) := by
  intro n
  induction n with
  | zero =>
      intro rest hlen hne _
      rcases rest with _ | ⟨a, b⟩
      · exact absurd rfl hne
      · simp at hlen
  | succ n ih =>
      intro rest hlen hne hnl
      obtain ⟨m, rest2, heq, hr2⟩ := run_decomp rest
      subst heq
      rcases hr2 with rfl | hhead
      · rw [List.append_nil] at hne hnl hlen ⊢
        have hm : 1 ≤ m := by
          rcases Nat.eq_zero_or_pos m with rfl | h
          · simp at hne
          · exact h
        obtain ⟨k, rfl⟩ : ∃ k, m = k + 1 := ⟨m - 1, by omega⟩
        rw [joinNl_repl k]
        have hrun : collapseGo 1 (List.replicate k '\n') = collapseEmit (1 + k) := by
          have h2 := collapseGo_runs k 1 []
          rw [List.append_nil] at h2
          rw [h2]
          rfl
        rw [hrun, collapseEmit_pos (1 + k) (by omega)]
        refine ⟨List.replicate (emCount (1 + k) - 1) '\n', rfl, ?_⟩
        have hsp : splitNl (List.replicate (emCount (1 + k) - 1) '\n') =
            List.replicate (emCount (1 + k)) ([] : Chars) := by
          have h1 := splitNl_nl_run (emCount (1 + k) - 1) []
          rw [List.append_nil] at h1
          rw [h1, show splitNl ([] : Chars) = [[]] from rfl, ← List.replicate_succ']
          congr 1
          have := emCount_pos (1 + k) (by omega)
          omega
        rw [hsp]
        have h5 := thins_run Thins.nil (k + 1) (emCount (1 + k))
          (by have := emCount_le (1 + k); omega)
          (by intro h0; have := emCount_zero _ h0; omega)
        simpa using h5
      · rcases rest2 with _ | ⟨y, rest3⟩
        · simp at hhead
        · have hy : y ≠ [] := by simpa using hhead
          have hynl : '\n' ∉ y := hnl y (by simp)
          rcases y with _ | ⟨c, y0⟩
          · exact absurd rfl hy
          · have hc : c ≠ '\n' := fun h => hynl (by simp [h])
            have hy0 : '\n' ∉ y0 := fun h => hynl (List.mem_cons_of_mem _ h)
            rw [joinNl_repl_front m _ (by simp), collapseGo_runs m 1]
            rcases rest3 with _ | ⟨y2, rest4⟩
            · have hjy : joinNl [(c :: y0)] = c :: y0 := by simp [joinNl_cons]
              rw [hjy, collapseGo_ne _ c _ hc, collapseGo_zero_nonl y0 hy0,
                collapseEmit_pos (1 + m) (by omega)]
              refine ⟨List.replicate (emCount (1 + m) - 1) '\n' ++ c :: y0, rfl, ?_⟩
              rw [splitNl_nl_run, splitNl_nonl (c :: y0) hynl]
              exact thins_run (thins_refl [c :: y0]) m (emCount (1 + m) - 1)
                (by have := emCount_le (1 + m); omega)
                (by intro h0; unfold emCount at h0; split at h0 <;> omega)
            · rw [joinNl_cons_ne _ _ (by simp), List.cons_append,
                collapseGo_ne _ c _ hc, collapseGo_append_nonl y0 hy0,
                collapseGo_nl 0]
              obtain ⟨w3, hw3, ht3⟩ := ih (y2 :: rest4)
                (by simp at hlen ⊢; omega) (by simp)
                (fun l hl => hnl l (List.mem_append_right _ (List.mem_cons_of_mem _ hl)))
              rw [hw3, collapseEmit_pos (1 + m) (by omega)]
              refine ⟨List.replicate (emCount (1 + m) - 1) '\n' ++
                (c :: (y0 ++ '\n' :: w3)), rfl, ?_⟩
              rw [show (c :: (y0 ++ '\n' :: w3) : Chars) = (c :: y0) ++ '\n' :: w3 from rfl,
                splitNl_nl_run, splitNl_append_cons (c :: y0) w3 hynl]
              exact thins_run (Thins.keep (c :: y0) ht3) m (emCount (1 + m) - 1)
                (by have := emCount_le (1 + m); omega)
                (by intro h0; unfold emCount at h0; split at h0 <;> omega)

lemma thins_top (O : List Chars) (hne : O ≠ []) (hnl : ∀ l ∈ O, '\n' ∉ l) :
    Thins O (splitNl (collapseNl (joinNl O))) := by
  obtain ⟨m, rest2, heq, hr2⟩ := run_decomp O
  subst heq
  rcases hr2 with rfl | hhead
  · rw [List.append_nil] at hne hnl ⊢
    have hm : 1 ≤ m := by
      rcases Nat.eq_zero_or_pos m with rfl | h
      · simp at hne
      · exact h
    obtain ⟨k, rfl⟩ : ∃ k, m = k + 1 := ⟨m - 1, by omega⟩
    rw [joinNl_repl k]
    have hrun : collapseNl (List.replicate k '\n') = collapseEmit k := by
      unfold collapseNl
      have h2 := collapseGo_runs k 0 []
      rw [List.append_nil] at h2
      rw [h2, Nat.zero_add]
      rfl
    rw [hrun, collapseEmit_eq]
    have hsp : splitNl (List.replicate (emCount k) '\n') =
        List.replicate (emCount k + 1) ([] : Chars) := by
      have h1 := splitNl_nl_run (emCount k) []
      rw [List.append_nil] at h1
      rw [h1, show splitNl ([] : Chars) = [[]] from rfl, ← List.replicate_succ']
    rw [hsp]
    have h5 := thins_run Thins.nil (k + 1) (emCount k + 1)
      (by have := emCount_le k; omega) (by omega)
    simpa using h5
  · rcases rest2 with _ | ⟨y, rest3⟩
    · simp at hhead
    · have hy : y ≠ [] := by simpa using hhead
      have hynl : '\n' ∉ y := hnl y (by simp)
      rcases y with _ | ⟨c, y0⟩
      · exact absurd rfl hy
      · have hc : c ≠ '\n' := fun h => hynl (by simp [h])
        have hy0 : '\n' ∉ y0 := fun h => hynl (List.mem_cons_of_mem _ h)
        rw [joinNl_repl_front m _ (by simp)]
        unfold collapseNl
        rw [collapseGo_runs m 0]
        simp only [Nat.zero_add]
        rcases rest3 with _ | ⟨y2, rest4⟩
        · have hjy : joinNl [(c :: y0)] = c :: y0 := by simp [joinNl_cons]
          rw [hjy, collapseGo_ne _ c _ hc, collapseGo_zero_nonl y0 hy0,
            collapseEmit_eq, splitNl_nl_run, splitNl_nonl (c :: y0) hynl]
          exact thins_run (thins_refl [c :: y0]) m (emCount m)
            (emCount_le m) (fun h0 => emCount_zero m h0)
        · rw [joinNl_cons_ne _ _ (by simp), List.cons_append,
            collapseGo_ne _ c _ hc, collapseGo_append_nonl y0 hy0, collapseGo_nl 0]
          obtain ⟨w3, hw3, ht3⟩ := thins_tail (y2 :: rest4).length (y2 :: rest4)
            le_rfl (by simp)
            (fun l hl => hnl l (List.mem_append_right _ (List.mem_cons_of_mem _ hl)))
          rw [hw3, collapseEmit_eq,
            show (c :: (y0 ++ '\n' :: w3) : Chars) = (c :: y0) ++ '\n' :: w3 from rfl,
            splitNl_nl_run, splitNl_append_cons (c :: y0) w3 hynl]
          exact thins_run (Thins.keep (c :: y0) ht3) m (emCount m)
            (emCount_le m) (fun h0 => emCount_zero m h0)

lemma take_succ_getD (C : List Chars) (i : Nat) (h : i < C.length) :
    C.take (i + 1) = C.take i ++ [C.getD i []] := by
  rw [List.take_succ, List.getElem?_eq_getElem h, List.getD_eq_getElem C [] h]
  rfl

lemma getD_append_self {α : Type} (R : List α) (v : α) (d : α) :
    (R ++ [v]).getD R.length d = v := by
  rw [List.getD_eq_getElem?_getD, List.getElem?_append_right (le_refl _)]
  simp

lemma reverse_getD_last {α : Type} (acc : List α) (d : α) (h : acc ≠ []) :
    acc.reverse.getD (acc.length - 1) d = acc.headD d := by
  rcases acc with _ | ⟨x, t⟩
  · exact absurd rfl h
  · rw [List.reverse_cons, show (x :: t).length - 1 = t.reverse.length from by simp,
      getD_append_self]
    rfl

lemma stable_of_part (C : List Chars) (h : PartStable C) : Stable C := by
  intro i hi
  constructor
  · rcases Nat.eq_zero_or_pos i with rfl | hpos
    · rw [show prevAt C 0 = .start from rfl]
      exact nbb_start _
    · obtain ⟨k, rfl⟩ : ∃ k, i = k + 1 := ⟨i - 1, by omega⟩
      exact (h k hi).1
  · by_cases hb : i + 1 < C.length
    · exact (h i hb).2
    · exact nba_oob _ _ _ (by omega)

lemma mem_collapseGo (s : Chars) : ∀ r c, c ∈ collapseGo r s → c = '\n' ∨ c ∈ s := by
  induction s with
  | nil =>
      intro r c hc
      rw [show collapseGo r [] = collapseEmit r from rfl, collapseEmit_eq] at hc
      exact Or.inl (List.eq_of_mem_replicate hc)
  | cons d rest ih =>
      intro r c hc
      by_cases hd : d = '\n'
      · subst hd
        rw [collapseGo_nl] at hc
        rcases ih (r + 1) c hc with h | h
        · exact Or.inl h
        · exact Or.inr (List.mem_cons_of_mem _ h)
      · rw [collapseGo_ne r d rest hd] at hc
        rcases List.mem_append.1 hc with h | h
        · rw [collapseEmit_eq] at h
          exact Or.inl (List.eq_of_mem_replicate h)
        · rcases List.mem_cons.1 h with rfl | h
          · exact Or.inr (by simp)
          · rcases ih 0 c h with h | h
            · exact Or.inl h
            · exact Or.inr (List.mem_cons_of_mem _ h)

lemma normGo_length (L : List Chars) : ∀ fuel i a b p acc,
    acc.length + fuel.length ≤ (normGo L fuel i a b p acc).length := by
  intro fuel
  induction fuel with
  | nil =>
      intro i a b p acc
      simp [normGo]
  | cons f fuel ih =>
      intro i a b p acc
      obtain ⟨a2, b2, p2, mid, heq, _, hmlen⟩ := normGo_step L f fuel i a b p acc
      rw [heq]
      have h2 := ih (i + 1) a2 b2 p2 (mid ++ acc)
      simp only [List.length_append, List.length_cons] at h2 ⊢
      omega

lemma normLoop_ne_nil (L : List Chars) (h : L ≠ []) : normLoop L ≠ [] := by
  unfold normLoop
  intro hcontra
  have hlen := normGo_length L L 0 false false .start []
  rw [hcontra] at hlen
  simp at hlen
  exact h hlen

lemma normGo_fix (C : List Chars) (hS : Stable C) :
    ∀ fuel i b acc, fuel.length + i = C.length →
      acc.reverse = C.take i →
      normGo C fuel i (fenceParityBefore C i) b (prevAt C i) acc = C := by
  intro fuel
  induction fuel with
  | nil =>
      intro i b acc hlen hacc
      have hi : i = C.length := by simpa using hlen
      rw [show normGo C [] i (fenceParityBefore C i) b (prevAt C i) acc = acc.reverse
          from rfl, hacc, hi, List.take_length]
  | cons f fuel ih =>
      intro i b acc hlen hacc
      have hi : i < C.length := by simp at hlen; omega
      obtain ⟨h1, h2⟩ := hS i hi
      simp only [normGo]
      rw [if_neg (show ¬((needBlankBefore (prevAt C i)
          (getLineType (C.getD i []) (fenceParityBefore C i) b) && !acc.isEmpty &&
          !(pstrip (acc.headD [])).isEmpty) = true) from by
        rw [getLineType_table_irrel _ _ b false]
        unfold typAt at h1
        rw [h1]
        simp)]
      rw [if_neg (show ¬((needBlankAfter C i
          (getLineType (C.getD i []) (fenceParityBefore C i) b) &&
          decide (i + 1 < C.length) &&
          !(pstrip (C.getD (i + 1) [])).isEmpty) = true) from by
        rw [getLineType_table_irrel _ _ b false]
        unfold typAt at h2
        rw [h2]
        simp)]
      have hcode : (if (str "```").isPrefixOf (C.getD i [])
          then !(fenceParityBefore C i) else fenceParityBefore C i) =
          fenceParityBefore C (i + 1) := by
        rw [parity_succ]
        rfl
      have hprev : (if !(pstrip (C.getD i [])).isEmpty
          then getLineType (C.getD i []) (fenceParityBefore C i) b else LType.empty) =
          prevAt C (i + 1) := by
        unfold prevAt
        rw [if_neg (show ¬(i + 1 = 0) by omega)]
        simp only [Nat.add_sub_cancel]
        by_cases hblank : (pstrip (C.getD i [])).isEmpty = true
        · rw [if_pos hblank, hblank]
          rfl
        · have hblank' : (pstrip (C.getD i [])).isEmpty = false := by
            simpa using hblank
          rw [if_neg hblank, hblank']
          unfold typAt
          rfl
      rw [hcode, hprev]
      exact ih (i + 1) _ (C.getD i [] :: acc) (by simp at hlen ⊢; omega)
        (by rw [List.reverse_cons, hacc, take_succ_getD C i hi])

lemma normLoop_fix (C : List Chars) (hS : Stable C) : normLoop C = C := by
  unfold normLoop
  have h := normGo_fix C hS C 0 false [] (by simp) (by simp)
  rw [show fenceParityBefore C 0 = false from rfl,
    show prevAt C 0 = .start from rfl] at h
  exact h

lemma typAt_last_append (R1 : List Chars) (line : Chars) (p : Bool)
    (hp : parityAfter false R1 = p) :
    typAt (R1 ++ [line]) ((R1 ++ [line]).length - 1) = getLineType line p false := by
  unfold typAt
  have h1 : (R1 ++ [line]).length - 1 = R1.length := by simp
  rw [h1, getD_append_self, ← parity_take, List.take_append_of_le_length (le_refl _),
    List.take_length, hp]

lemma fpb_last_append (R1 : List Chars) (line : Chars) (p : Bool)
    (hp : parityAfter false R1 = p) :
    fenceParityBefore (R1 ++ [line]) ((R1 ++ [line]).length - 1) = p := by
  have h1 : (R1 ++ [line]).length - 1 = R1.length := by simp
  rw [h1, ← parity_take, List.take_append_of_le_length (le_refl _),
    List.take_length, hp]

lemma partStable_snoc_blank (R : List Chars) (hPS : PartStable R) :
    PartStable (R ++ [[]]) := by
  apply partStable_snoc R [] hPS
  intro hne
  have hlen1 : 1 ≤ R.length := List.length_pos.mpr hne
  constructor
  · rw [show typAt (R ++ [[]]) R.length = .empty from by
      unfold typAt
      rw [getD_append_self]
      exact getLineType_blank _ _ _ rfl]
    exact nbb_cur_empty _
  · refine nba_next_blank _ _ _ ?_
    rw [show R.length - 1 + 1 = R.length from by omega, getD_append_self]
    rfl

lemma partStable_snoc_line_after_blank (R : List Chars) (line : Chars)
    (hPS : PartStable (R ++ [[]])) : PartStable ((R ++ [[]]) ++ [line]) := by
  apply partStable_snoc _ line hPS
  intro hne
  have h0 : ¬((R ++ [[]]).length = 0) := by simp
  have hidx : (R ++ [[]]).length - 1 = R.length := by simp
  have hgd : ((R ++ [[]]) ++ [line]).getD ((R ++ [[]]).length - 1) [] = [] := by
    have h1 : ((R ++ [[]]) ++ [line]).getD ((R ++ [[]]).length - 1) [] =
        (R ++ [[]]).getD ((R ++ [[]]).length - 1) [] :=
      List.getD_append _ _ _ _ (by simp)
    rw [h1, hidx, getD_append_self]
  constructor
  · have hprev : prevAt ((R ++ [[]]) ++ [line]) (R ++ [[]]).length = .empty := by
      unfold prevAt
      rw [if_neg h0, hgd]
      rfl
    rw [hprev]
    exact nbb_prev_empty _
  · have htyp : typAt ((R ++ [[]]) ++ [line]) ((R ++ [[]]).length - 1) = .empty := by
      have h1 : typAt ((R ++ [[]]) ++ [line]) ((R ++ [[]]).length - 1) =
          typAt (R ++ [[]]) ((R ++ [[]]).length - 1) :=
        typAt_append _ _ _ (by simp)
      rw [h1, hidx]
      unfold typAt
      rw [getD_append_self]
      exact getLineType_blank _ _ _ rfl
    rw [htyp]
    exact nba_cur_empty _ _

lemma partStable_snoc_line (R : List Chars) (line : Chars) (prev : LType) (parL : Bool)
    (hPS : PartStable R)
    (hpar : parityAfter false R = parL)
    (hPrev : R ≠ [] → (pstrip (R.getD (R.length - 1) [])).isEmpty = false →
      prev = typAt R (R.length - 1))
    (hPend : R ≠ [] → (pstrip (R.getD (R.length - 1) [])).isEmpty = false →
      nbaCore (R.getD (R.length - 1) []) (typAt R (R.length - 1))
          (fenceParityBefore R (R.length - 1)) = false ∨
        (pstrip line).isEmpty = true)
    (hnbb : R ≠ [] →
      needBlankBefore prev (getLineType line parL false) = false ∨
      (pstrip (R.getD (R.length - 1) [])).isEmpty = true) :
    PartStable (R ++ [line]) := by
  apply partStable_snoc _ line hPS
  intro hne
  have hlen1 : 1 ≤ R.length := List.length_pos.mpr hne
  have h0 : ¬(R.length = 0) := by omega
  have hgd : (R ++ [line]).getD (R.length - 1) [] = R.getD (R.length - 1) [] :=
    List.getD_append _ _ _ _ (by omega)
  have hty : typAt (R ++ [line]) (R.length - 1) = typAt R (R.length - 1) :=
    typAt_append _ _ _ (by omega)
  constructor
  · by_cases hu : (pstrip (R.getD (R.length - 1) [])).isEmpty = true
    · have hprev2 : prevAt (R ++ [line]) R.length = .empty := by
        unfold prevAt
        rw [if_neg h0, hgd, if_pos hu]
      rw [hprev2]
      exact nbb_prev_empty _
    · have hu' : (pstrip (R.getD (R.length - 1) [])).isEmpty = false := by
        simpa using hu
      rcases hnbb hne with hnbb2 | hblank
      · have hprevAt : prevAt (R ++ [line]) R.length = prev := by
          unfold prevAt
          rw [if_neg h0, hgd, if_neg hu, hty, hPrev hne hu']
        have htyp : typAt (R ++ [line]) R.length = getLineType line parL false := by
          have h := typAt_last_append R line parL hpar
          rwa [show (R ++ [line]).length - 1 = R.length from by simp] at h
        rw [hprevAt, htyp]
        exact hnbb2
      · exact absurd hblank hu
  · by_cases hu : (pstrip (R.getD (R.length - 1) [])).isEmpty = true
    · have htyp : typAt (R ++ [line]) (R.length - 1) = .empty := by
        rw [hty]
        unfold typAt
        exact getLineType_blank _ _ _ hu
      rw [htyp]
      exact nba_cur_empty _ _
    · have hu' : (pstrip (R.getD (R.length - 1) [])).isEmpty = false := by
        simpa using hu
      rcases hPend hne hu' with hcore | hblankline
      · refine nba_of_core _ _ _ ?_
        have hpb : fenceParityBefore (R ++ [line]) (R.length - 1) =
            fenceParityBefore R (R.length - 1) :=
          parityBefore_append _ _ _ (by omega)
        rw [hgd, hty, hpb]
        exact hcore
      · refine nba_next_blank _ _ _ ?_
        rw [show R.length - 1 + 1 = R.length from by omega, getD_append_self]
        exact hblankline

lemma normGo_partStable (L : List Chars) : ∀ fuel i inTable prev acc,
    fuel.length + i = L.length →
    parityAfter false acc.reverse = fenceParityBefore L i →
    PartStable acc.reverse →
    (acc ≠ [] → (pstrip (acc.headD [])).isEmpty = false →
      prev = typAt acc.reverse (acc.reverse.length - 1)) →
    (acc ≠ [] → (pstrip (acc.headD [])).isEmpty = false →
      nbaCore (acc.headD []) (typAt acc.reverse (acc.reverse.length - 1))
          (fenceParityBefore acc.reverse (acc.reverse.length - 1)) = false ∨
        (pstrip (L.getD i [])).isEmpty = true) →
    PartStable (normGo L fuel i (fenceParityBefore L i) inTable prev acc) := by
  intro fuel
  induction fuel with
  | nil =>
      intro i inTable prev acc _ _ hPS _ _
      exact hPS
  | cons f fuel ih =>
      intro i inTable prev acc hlen hparR hPS hPrev hPend
      have hi : i < L.length := by simp at hlen; omega
      have hlen' : fuel.length + (i + 1) = L.length := by simp at hlen ⊢; omega
      have hcode : (if (str "```").isPrefixOf (L.getD i [])
          then !(fenceParityBefore L i) else fenceParityBefore L i) =
          fenceParityBefore L (i + 1) := by
        rw [parity_succ]
        rfl
      have hb : ∀ q : Bool, parityAfter q [([] : Chars)] = q := fun q => rfl
      have hline : ∀ q : Bool,
          parityAfter q [L.getD i []] = toggleF q (L.getD i []) := fun q => rfl
      have hvacuous : ∀ (rest : List Chars),
          ¬((pstrip ((([] : Chars) :: rest).headD [])).isEmpty = false) := by
        intro rest hcon
        simp only [List.headD_cons] at hcon
        rw [show (pstrip ([] : Chars)).isEmpty = true from rfl] at hcon
        simp at hcon
      -- translations of the head-of-acc hypotheses to last-of-reverse form
      have hPrevR : acc.reverse ≠ [] →
          (pstrip (acc.reverse.getD (acc.reverse.length - 1) [])).isEmpty = false →
          prev = typAt acc.reverse (acc.reverse.length - 1) := by
        intro hne hblank
        have hacc : acc ≠ [] := fun h => hne (by rw [h]; rfl)
        have hgdr : acc.reverse.getD (acc.reverse.length - 1) [] = acc.headD [] := by
          rw [List.length_reverse]
          exact reverse_getD_last acc [] hacc
        exact hPrev hacc (by rwa [hgdr] at hblank)
      have hPendR : acc.reverse ≠ [] →
          (pstrip (acc.reverse.getD (acc.reverse.length - 1) [])).isEmpty = false →
          nbaCore (acc.reverse.getD (acc.reverse.length - 1) [])
              (typAt acc.reverse (acc.reverse.length - 1))
              (fenceParityBefore acc.reverse (acc.reverse.length - 1)) = false ∨
            (pstrip (L.getD i [])).isEmpty = true := by
        intro hne hblank
        have hacc : acc ≠ [] := fun h => hne (by rw [h]; rfl)
        have hgdr : acc.reverse.getD (acc.reverse.length - 1) [] = acc.headD [] := by
          rw [List.length_reverse]
          exact reverse_getD_last acc [] hacc
        rw [hgdr]
        exact hPend hacc (by rwa [hgdr] at hblank)
      simp only [normGo]
      by_cases h1 : (needBlankBefore prev
          (getLineType (L.getD i []) (fenceParityBefore L i) inTable) &&
          !acc.isEmpty && !(pstrip (acc.headD [])).isEmpty) = true
      · rw [if_pos h1]
        by_cases h2 : (needBlankAfter L i
            (getLineType (L.getD i []) (fenceParityBefore L i) inTable) &&
            decide (i + 1 < L.length) && !(pstrip (L.getD (i + 1) [])).isEmpty) = true
        · -- blank before and after
          rw [if_pos h2, hcode]
          refine ih (i + 1) _ _ _ hlen' ?_ ?_ ?_ ?_
          · rw [List.reverse_cons, List.reverse_cons, List.reverse_cons,
              parityAfter_append, parityAfter_append, parityAfter_append,
              hb, hline, hb, hparR, ← parity_succ]
          · rw [List.reverse_cons, List.reverse_cons, List.reverse_cons]
            exact partStable_snoc_blank _
              (partStable_snoc_line_after_blank _ _ (partStable_snoc_blank _ hPS))
          · intro _ hcon
            exact absurd hcon (hvacuous _)
          · intro _ hcon
            exact absurd hcon (hvacuous _)
        · -- blank before only
          rw [if_neg h2, hcode]
          refine ih (i + 1) _ _ _ hlen' ?_ ?_ ?_ ?_
          · rw [List.reverse_cons, List.reverse_cons,
              parityAfter_append, parityAfter_append,
              hline, hb, hparR, ← parity_succ]
          · rw [List.reverse_cons, List.reverse_cons]
            exact partStable_snoc_line_after_blank _ _ (partStable_snoc_blank _ hPS)
          · intro _ hhead
            simp only [List.headD_cons] at hhead
            rw [if_pos (show (!(pstrip (L.getD i [])).isEmpty) = true from by
              rw [hhead]; rfl)]
            rw [List.reverse_cons, List.reverse_cons]
            have hTA := typAt_last_append (acc.reverse ++ [[]]) (L.getD i [])
              (fenceParityBefore L i) (by rw [parityAfter_append, hb, hparR])
            rw [hTA]
            rfl
          · intro _ hhead
            simp only [List.headD_cons] at hhead ⊢
            rw [List.reverse_cons, List.reverse_cons]
            have hTA := typAt_last_append (acc.reverse ++ [[]]) (L.getD i [])
              (fenceParityBefore L i) (by rw [parityAfter_append, hb, hparR])
            have hFP := fpb_last_append (acc.reverse ++ [[]]) (L.getD i [])
              (fenceParityBefore L i) (by rw [parityAfter_append, hb, hparR])
            rw [hTA, hFP]
            by_cases hnb : (pstrip (L.getD (i + 1) [])).isEmpty = true
            · exact Or.inr hnb
            · by_cases hbd : i + 1 < L.length
              · have hnb' : (pstrip (L.getD (i + 1) [])).isEmpty = false := by
                  simpa using hnb
                have hnba : needBlankAfter L i
                    (getLineType (L.getD i []) (fenceParityBefore L i) inTable) = false := by
                  rcases Bool.eq_false_or_eq_true (needBlankAfter L i
                    (getLineType (L.getD i []) (fenceParityBefore L i) inTable)) with ht | hf
                  · exact absurd (by rw [ht, hnb']; simp [hbd]) h2
                  · exact hf
                exact Or.inl (core_of_nba L i _ hnba hbd hnb')
              · have hdef : L.getD (i + 1) [] = [] := List.getD_eq_default _ _ (by omega)
                exact Or.inr (by rw [hdef]; rfl)
      · rw [if_neg h1]
        have hnbbR : acc.reverse ≠ [] →
            needBlankBefore prev (getLineType (L.getD i []) (fenceParityBefore L i) false)
              = false ∨
            (pstrip (acc.reverse.getD (acc.reverse.length - 1) [])).isEmpty = true := by
          intro hne
          have hacc : acc ≠ [] := fun h => hne (by rw [h]; rfl)
          have hgdr : acc.reverse.getD (acc.reverse.length - 1) [] = acc.headD [] := by
            rw [List.length_reverse]
            exact reverse_getD_last acc [] hacc
          by_cases hhb : (pstrip (acc.headD [])).isEmpty = true
          · exact Or.inr (by rw [hgdr]; exact hhb)
          · have hhb' : (pstrip (acc.headD [])).isEmpty = false := by simpa using hhb
            have hae : acc.isEmpty = false := by
              cases acc with
              | nil => exact absurd rfl hacc
              | cons a t => rfl
            refine Or.inl ?_
            rcases Bool.eq_false_or_eq_true (needBlankBefore prev
              (getLineType (L.getD i []) (fenceParityBefore L i) inTable)) with ht | hf
            · exact absurd (by rw [ht, hae, hhb']; rfl) h1
            · exact hf
        have hPSline : PartStable (acc.reverse ++ [L.getD i []]) :=
          partStable_snoc_line acc.reverse (L.getD i []) prev (fenceParityBefore L i)
            hPS hparR hPrevR hPendR hnbbR
        by_cases h2 : (needBlankAfter L i
            (getLineType (L.getD i []) (fenceParityBefore L i) inTable) &&
            decide (i + 1 < L.length) && !(pstrip (L.getD (i + 1) [])).isEmpty) = true
        · -- blank after only
          rw [if_pos h2, hcode]
          refine ih (i + 1) _ _ _ hlen' ?_ ?_ ?_ ?_
          · rw [List.reverse_cons, List.reverse_cons,
              parityAfter_append, parityAfter_append,
              hb, hline, hparR, ← parity_succ]
          · rw [List.reverse_cons, List.reverse_cons]
            exact partStable_snoc_blank _ hPSline
          · intro _ hcon
            exact absurd hcon (hvacuous _)
          · intro _ hcon
            exact absurd hcon (hvacuous _)
        · -- no insertion
          rw [if_neg h2, hcode]
          refine ih (i + 1) _ _ _ hlen' ?_ ?_ ?_ ?_
          · rw [List.reverse_cons, parityAfter_append,
              hline, hparR, ← parity_succ]
          · rw [List.reverse_cons]
            exact hPSline
          · intro _ hhead
            simp only [List.headD_cons] at hhead
            rw [if_pos (show (!(pstrip (L.getD i [])).isEmpty) = true from by
              rw [hhead]; rfl)]
            rw [List.reverse_cons]
            have hTA := typAt_last_append acc.reverse (L.getD i [])
              (fenceParityBefore L i) hparR
            rw [hTA]
            rfl
          · intro _ hhead
            simp only [List.headD_cons] at hhead ⊢
            rw [List.reverse_cons]
            have hTA := typAt_last_append acc.reverse (L.getD i [])
              (fenceParityBefore L i) hparR
            have hFP := fpb_last_append acc.reverse (L.getD i [])
              (fenceParityBefore L i) hparR
            rw [hTA, hFP]
            by_cases hnb : (pstrip (L.getD (i + 1) [])).isEmpty = true
            · exact Or.inr hnb
            · by_cases hbd : i + 1 < L.length
              · have hnb' : (pstrip (L.getD (i + 1) [])).isEmpty = false := by
                  simpa using hnb
                have hnba : needBlankAfter L i
                    (getLineType (L.getD i []) (fenceParityBefore L i) inTable) = false := by
                  rcases Bool.eq_false_or_eq_true (needBlankAfter L i
                    (getLineType (L.getD i []) (fenceParityBefore L i) inTable)) with ht | hf
                  · exact absurd (by rw [ht, hnb']; simp [hbd]) h2
                  · exact hf
                exact Or.inl (core_of_nba L i _ hnba hbd hnb')
              · have hdef : L.getD (i + 1) [] = [] := List.getD_eq_default _ _ (by omega)
                exact Or.inr (by rw [hdef]; rfl)

lemma normLoop_partStable (L : List Chars) : PartStable (normLoop L) := by
  unfold normLoop
  have h := normGo_partStable L L 0 false .start []
    (by simp) rfl (by intro j hj; simp at hj)
    (by intro h2; exact absurd rfl h2)
    (by intro h2; exact absurd rfl h2)
  exact h

/-- C3: the normalizer is idempotent — for every input string s,
normalize_markdown (normalize_markdown s) = normalize_markdown s.  The first
pass leaves every adjacent pair of output lines in a state where neither
_should_add_blank_line nor _should_add_blank_after fires; the final newline
collapse only thins runs of blank lines, which preserves that state, so the
second pass returns its input unchanged. -/
theorem normalizer_idempotent (s : Chars) :
    normalize_markdown (normalize_markdown s) = normalize_markdown s := by
  have hO_lines : ∀ l ∈ normLoop (splitNl (replaceCR s)),
      l ∈ splitNl (replaceCR s) ∨ l = [] := by
    intro l hl
    rcases normGo_lines (splitNl (replaceCR s)) (splitNl (replaceCR s))
      0 false false .start [] l hl with h | h | h
    · exact Or.inl h
    · exact Or.inr h
    · simp at h
  have hO_nonl : ∀ l ∈ normLoop (splitNl (replaceCR s)), '\n' ∉ l := by
    intro l hl
    rcases hO_lines l hl with h | h
    · exact splitNl_no_nl _ l h
    · rw [h]; simp
  have hO_ne : normLoop (splitNl (replaceCR s)) ≠ [] :=
    normLoop_ne_nil _ (splitNl_ne_nil _)
  have hO_stable : Stable (normLoop (splitNl (replaceCR s))) :=
    stable_of_part _ (normLoop_partStable _)
  have ht_nocr : '\r' ∉ collapseNl (joinNl (normLoop (splitNl (replaceCR s)))) := by
    intro hmem
    rcases mem_collapseGo _ 0 '\r' hmem with h | h
    · exact absurd h (by decide)
    · rcases mem_joinNl _ '\r' h with h2 | ⟨l, hl, hcl⟩
      · exact absurd h2 (by decide)
      · rcases hO_lines l hl with h3 | h3
        · exact replaceCR_no_cr s (splitNl_mem_chars _ l h3 '\r' hcl)
        · rw [h3] at hcl; simp at hcl
  have hC_chain : chainOK false
      (splitNl (collapseNl (joinNl (normLoop (splitNl (replaceCR s)))))) :=
    thins_chainOK (thins_top _ hO_ne hO_nonl) false (chain_of_stable _ hO_stable)
  have hC_fix := normLoop_fix _ (stable_of_chain _ hC_chain)
  show collapseNl (joinNl (normLoop (splitNl (replaceCR (normalize_markdown s))))) =
    normalize_markdown s
  rw [show replaceCR (normalize_markdown s) = normalize_markdown s from
    replaceCR_fix _ ht_nocr]
  rw [show normalize_markdown s =
    collapseNl (joinNl (normLoop (splitNl (replaceCR s)))) from rfl]
  rw [hC_fix, joinNl_splitNl]
  exact collapse_idem _

end M2W
